import Mathlib

/-!
Verification of the raised-edge depth-map pipeline: the edge processor
(`processImageWithEdges` with its contour extraction, distance field and
depth profiles), the edge smoother (`intelligentEdgeSmoothing`) and the
height-field mesh builder (`PreciseDepthMapModel`), shallowly embedded
from the TypeScript source.  Machine numbers are modelled exactly:
byte channels as `ℕ`, script numbers as `ℚ`/`ℝ`, and the distance values
manipulated by the propagation loop as `q + s·√2` pairs.
-/

namespace RaisedEdge

/-- An RGBA raster: `width`, `height` and a byte buffer, addressed as
`data (4*(y*width+x) + channel)`, row-major, origin top-left
(the `ImageData` objects of the source). -/
structure ImgData where
  width : ℕ
  height : ℕ
  data : ℕ → ℕ

/-- Numbers of the form `q + s·√2`.  Every number the distance-field loop of
`calculateDistanceFieldFast` manipulates has this form: the `-1` sentinel,
the `maxDistance` cap, and accumulated path lengths, which are sums of the
step costs `Math.sqrt 1 = 1` and `Math.sqrt 2 = √2`. -/
structure QSqrt2 where
  q : ℚ
  s : ℚ
deriving DecidableEq, Repr

namespace QSqrt2

/-- The real number denoted by a `QSqrt2` value. -/
noncomputable def toReal (v : QSqrt2) : ℝ := (v.q : ℝ) + (v.s : ℝ) * Real.sqrt 2

/-- Exact addition: `(q₁ + s₁√2) + (q₂ + s₂√2)`. -/
def add (v w : QSqrt2) : QSqrt2 := ⟨v.q + w.q, v.s + w.s⟩

/-- Decidable order test `v ≤ w`, by sign analysis and squaring:
`v ≤ w ↔ (v.q - w.q) ≤ (w.s - v.s)·√2`. -/
def ble (v w : QSqrt2) : Bool :=
  if 0 ≤ w.s - v.s then
    decide (v.q - w.q ≤ 0) || decide ((v.q - w.q) ^ 2 ≤ 2 * (w.s - v.s) ^ 2)
  else
    decide (v.q - w.q ≤ 0) && decide (2 * (w.s - v.s) ^ 2 ≤ (v.q - w.q) ^ 2)

/-- Decidable strict order test `v < w`. -/
def blt (v w : QSqrt2) : Bool := ! ble w v

end QSqrt2

/-- Store into a `Uint8ClampedArray` slot: integer values clamp to `[0, 255]`. -/
def clampByte (z : ℤ) : ℕ := (min 255 (max 0 z)).toNat

/-! ## The edge processor (`src/unnamed/part_004`) -/

/-- Edge style selector (`EdgeProcessorOptions.edgeType`). -/
inductive EdgeType where
  | vertical
  | rounded
  | chamfered
deriving DecidableEq, Repr

/-- Parameters of `processImageWithEdges`.  `edgeWidth` is a script number,
modelled exactly as a rational.  `chamferAngle` is in degrees; the value `0`
models a falsy (missing or zero) angle, which `options.chamferAngle || 45`
resolves to `45`. -/
structure EdgeProcessorOptions where
  edgeType : EdgeType
  edgeWidth : ℚ
  chamferAngle : ℝ

/-- Contour mask of `extractSmartContour`: pixel `p` is inside iff its alpha
byte exceeds `32`. -/
def extractSmartContour (img : ImgData) : ℕ → Bool := fun p =>
  decide (32 < img.data (p * 4 + 3))

/-- The eight neighbour offsets `(dx, dy)` in the order the source loops
visit them (`dy` outer from `-1` to `1`, `dx` inner, skipping `(0, 0)`). -/
def neighborOffsets : List (ℤ × ℤ) :=
  [(-1, -1), (0, -1), (1, -1), (-1, 0), (1, 0), (-1, 1), (0, 1), (1, 1)]

/-- Edge-pixel test of `calculateDistanceFieldFast`: an inside pixel is an
edge pixel when one of its eight neighbours is outside the mask or off the
raster. -/
def isEdgePx (contour : ℕ → Bool) (w h x y : ℕ) : Bool :=
  neighborOffsets.any fun d =>
    let nx : ℤ := (x : ℤ) + d.1
    let ny : ℤ := (y : ℤ) + d.2
    if 0 ≤ nx ∧ nx < (w : ℤ) ∧ 0 ≤ ny ∧ ny < (h : ℤ) then
      ! contour (ny.toNat * w + nx.toNat)
    else
      true

/-- Step cost `Math.sqrt (dx*dx + dy*dy)` for an 8-neighbourhood offset:
`1` for an orthogonal step, `√2` for a diagonal one. -/
def stepCost (d : ℤ × ℤ) : QSqrt2 := if d.1 = 0 ∨ d.2 = 0 then ⟨1, 0⟩ else ⟨0, 1⟩

/-- Initial distance assignment of `calculateDistanceFieldFast`: `0` for
inside edge pixels, `maxDistance` for inside non-edge pixels, and the `-1`
sentinel for outside pixels (and for indices beyond the raster, which the
loop never touches). -/
def initDists (contour : ℕ → Bool) (w h : ℕ) (maxD : ℚ) : ℕ → QSqrt2 := fun idx =>
  if idx < w * h ∧ contour idx = true then
    if isEdgePx contour w h (idx % w) (idx / w) then ⟨0, 0⟩ else ⟨maxD, 0⟩
  else ⟨-1, 0⟩

/-- A frontier queue entry `{x, y, dist}`. -/
structure QEntry where
  x : ℕ
  y : ℕ
  dist : QSqrt2
deriving DecidableEq, Repr

/-- The initial frontier: all inside edge pixels in row-major scan order,
with distance `0`. -/
def initQueue (contour : ℕ → Bool) (w h : ℕ) : List QEntry :=
  (List.range h).flatMap fun y =>
    (List.range w).filterMap fun x =>
      if contour (y * w + x) && isEdgePx contour w h x y then
        some ⟨x, y, ⟨0, 0⟩⟩
      else none

/-- Body of the relaxation loop for one dequeued entry and one of the
eight offsets: an in-range inside neighbour whose stored distance strictly
improves to `entry.dist + stepCost` without exceeding `maxDistance` is
updated and appended to the pending queue tail. -/
def relaxOne (contour : ℕ → Bool) (w h : ℕ) (maxD : ℚ) (e : QEntry)
    (acc : (ℕ → QSqrt2) × List QEntry) (d : ℤ × ℤ) : (ℕ → QSqrt2) × List QEntry :=
  let nx : ℤ := (e.x : ℤ) + d.1
  let ny : ℤ := (e.y : ℤ) + d.2
  if 0 ≤ nx ∧ nx < (w : ℤ) ∧ 0 ≤ ny ∧ ny < (h : ℤ) then
    let nIdx := ny.toNat * w + nx.toNat
    if contour nIdx then
      let newDist := e.dist.add (stepCost d)
      if newDist.blt (acc.1 nIdx) && newDist.ble ⟨maxD, 0⟩ then
        (Function.update acc.1 nIdx newDist,
         acc.2 ++ [⟨nx.toNat, ny.toNat, newDist⟩])
      else acc
    else acc
  else acc

/-- Relaxation of the eight neighbours of one dequeued entry. -/
def relaxNeighbors (contour : ℕ → Bool) (w h : ℕ) (maxD : ℚ) (e : QEntry)
    (dists : ℕ → QSqrt2) : (ℕ → QSqrt2) × List QEntry :=
  neighborOffsets.foldl (relaxOne contour w h maxD e) (dists, [])

/-- The FIFO propagation loop (`while queueIndex < queue.length`), with
explicit fuel: a dequeued entry at distance `≥ maxDistance` is skipped,
otherwise its neighbours are relaxed and any improved ones enqueued. -/
def spfaLoop (contour : ℕ → Bool) (w h : ℕ) (maxD : ℚ) :
    ℕ → (ℕ → QSqrt2) → List QEntry → (ℕ → QSqrt2)
  | 0, dists, _ => dists
  | _ + 1, dists, [] => dists
  | fuel + 1, dists, e :: rest =>
    if QSqrt2.ble ⟨maxD, 0⟩ e.dist then
      spfaLoop contour w h maxD fuel dists rest
    else
      let step := relaxNeighbors contour w h maxD e dists
      spfaLoop contour w h maxD fuel step.1 (rest ++ step.2)

/-- Fuel that provably outlasts the loop: every strict improvement moves a
pixel value down within the finite set of step-sums bounded by
`maxDistance`, so the number of processed entries is at most
`w*h` seeds plus `w*h * (⌈maxDistance⌉ + 1)^2` improvements. -/
def spfaFuel (w h : ℕ) (maxD : ℚ) : ℕ := w * h * ((⌈maxD⌉₊ + 1) ^ 2 + 1) + 1

/-- The distance field of `calculateDistanceFieldFast`, as a map from pixel
index to the exact value the float code approximates. -/
def calculateDistanceFieldFast (contour : ℕ → Bool) (w h : ℕ) (maxD : ℚ) :
    ℕ → QSqrt2 :=
  spfaLoop contour w h maxD (spfaFuel w h maxD)
    (initDists contour w h maxD) (initQueue contour w h)

/-- Rounded profile `calculateRoundedDepth`: full height past `edgeWidth`,
otherwise the clamped floor of the quarter-circle height
`√(1 - (1-t)²) · 255` with `t = distance/edgeWidth`. -/
noncomputable def calculateRoundedDepth (distance edgeWidth : ℝ) : ℤ :=
  if edgeWidth ≤ distance then 255
  else
    max 0 (min 255
      ⌊Real.sqrt (1 - (1 - distance / edgeWidth) * (1 - distance / edgeWidth)) * 255⌋)

/-- Chamfered profile `calculateChamferedDepth`: full height past
`edgeWidth`, otherwise the clamped linear bevel `distance · tan(angle)`,
normalised by `edgeWidth · tan(angle)` when that cap exceeds `edgeWidth`
and by `edgeWidth` otherwise. -/
noncomputable def calculateChamferedDepth (distance edgeWidth angle : ℝ) : ℤ :=
  if edgeWidth ≤ distance then 255
  else
    let angleRad := angle * Real.pi / 180
    let maxHeight := edgeWidth * Real.tan angleRad
    let currentHeight := distance * Real.tan angleRad
    let normalizedHeight :=
      if edgeWidth < maxHeight then currentHeight / maxHeight * 255
      else currentHeight / edgeWidth * 255
    ⌊max 0 (min 255 normalizedHeight)⌋

/-- The byte buffer produced by `processImageWithEdges`.  Vertical edges
threshold the alpha channel directly; rounded and chamfered edges evaluate
their profile on the distance field.  Outside pixels get depth `0` and
alpha `0`; indices beyond the raster buffer read as `0`. -/
noncomputable def processImageWithEdges (img : ImgData)
    (options : EdgeProcessorOptions) : ℕ → ℕ := fun idx =>
  let p := idx / 4
  let c := idx % 4
  if p < img.width * img.height then
    let originalAlpha := img.data (p * 4 + 3)
    if options.edgeType = EdgeType.vertical then
      if c = 3 then
        clampByte (if 32 < originalAlpha then (originalAlpha : ℤ) else 0)
      else
        clampByte (if 32 < originalAlpha then 255 else 0)
    else
      let contour := extractSmartContour img
      let distance :=
        calculateDistanceFieldFast contour img.width img.height options.edgeWidth p
      let depth : ℤ :=
        if 32 < originalAlpha ∧ QSqrt2.ble ⟨0, 0⟩ distance = true then
          match options.edgeType with
          | EdgeType.rounded =>
            calculateRoundedDepth distance.toReal (options.edgeWidth : ℝ)
          | EdgeType.chamfered =>
            calculateChamferedDepth distance.toReal (options.edgeWidth : ℝ)
              (if options.chamferAngle = 0 then 45 else options.chamferAngle)
          | EdgeType.vertical => 0
        else 0
      if c = 3 then
        clampByte (if 32 < originalAlpha then (originalAlpha : ℤ) else 0)
      else
        clampByte depth
  else 0

/-! ## The edge smoother (`src/src/utils/simpleImageProcessor.ts`) -/

/-- Depth read of `intelligentEdgeSmoothing`: the R channel of the original
raster at `(x, y)`, and `0` off the raster. -/
def getPixelValue (img : ImgData) (x y : ℤ) : ℚ :=
  if 0 ≤ x ∧ x < (img.width : ℤ) ∧ 0 ≤ y ∧ y < (img.height : ℤ) then
    (img.data ((y.toNat * img.width + x.toNat) * 4) : ℚ)
  else 0

/-- Near-edge test of `intelligentEdgeSmoothing`: some of the eight
neighbour depth reads differs from the centre read by more than `8`. -/
def isEdgePixel (img : ImgData) (x y : ℤ) : Bool :=
  neighborOffsets.any fun d =>
    decide (8 < |getPixelValue img x y - getPixelValue img (x + d.1) (y + d.2)|)

/-- Kernel radius and integer-pyramid weight table selected by the
smoothing strength (`≤ 0.3` → 3×3, `≤ 0.7` → 5×5, else 7×7). -/
def kernelWeights (s : ℚ) : ℕ × List (List ℚ) :=
  if s ≤ 3 / 10 then
    (1, [[1, 2, 1], [2, 4, 2], [1, 2, 1]])
  else if s ≤ 7 / 10 then
    (2, [[1, 2, 3, 2, 1], [2, 4, 6, 4, 2], [3, 6, 9, 6, 3],
         [2, 4, 6, 4, 2], [1, 2, 3, 2, 1]])
  else
    (3, [[1, 2, 3, 4, 3, 2, 1], [2, 4, 6, 8, 6, 4, 2], [3, 6, 9, 12, 9, 6, 3],
         [4, 8, 12, 16, 12, 8, 4], [3, 6, 9, 12, 9, 6, 3],
         [2, 4, 6, 8, 6, 4, 2], [1, 2, 3, 4, 3, 2, 1]])

/-- Similarity-gated weighted average of `getSmoothValue`: kernel samples
within `30 + 70·strength` of the centre contribute `value · weight`; if no
sample qualifies the centre value is returned. -/
def getSmoothValue (img : ImgData) (s : ℚ) (x y : ℤ) : ℚ :=
  let centerValue := getPixelValue img x y
  let k := (kernelWeights s).1
  let weights := (kernelWeights s).2
  let acc :=
    (List.range (2 * k + 1)).foldl
      (fun acc2 dyi =>
        (List.range (2 * k + 1)).foldl
          (fun acc3 dxi =>
            let weight := (weights.getD dyi []).getD dxi 0
            let value := getPixelValue img (x + ((dxi : ℤ) - k)) (y + ((dyi : ℤ) - k))
            if |value - centerValue| < 30 + 70 * s then
              (acc3.1 + value * weight, acc3.2 + weight)
            else acc3)
          acc2)
      ((0 : ℚ), (0 : ℚ))
  if 0 < acc.2 then acc.1 / acc.2 else centerValue

/-- One smoothing iteration: near-edge pixels blend their previous R value
with the smoothed value using mix factor `√strength` and write the rounded
result to R, G and B, copying alpha; all other buffer slots keep their
previous bytes. -/
noncomputable def smoothingPass (img : ImgData) (s : ℚ) (cur : ℕ → ℕ) : ℕ → ℕ :=
  fun idx =>
    let p := idx / 4
    let c := idx % 4
    let x : ℤ := (p % img.width : ℕ)
    let y : ℤ := (p / img.width : ℕ)
    if p < img.width * img.height ∧ isEdgePixel img x y = true then
      if c = 3 then clampByte (cur (p * 4 + 3) : ℤ)
      else
        let originalValue := cur (p * 4)
        let enhancedStrength := Real.sqrt (s : ℝ)
        let finalValue := (originalValue : ℝ) * (1 - enhancedStrength) +
          ((getSmoothValue img s x y : ℚ) : ℝ) * enhancedStrength
        clampByte (round finalValue)
    else cur idx

/-- The byte buffer produced by `intelligentEdgeSmoothing`: the input bytes,
put through `⌈4·strength⌉` smoothing iterations. -/
noncomputable def intelligentEdgeSmoothing (img : ImgData) (s : ℚ) : ℕ → ℕ :=
  Nat.iterate (smoothingPass img s) ⌈s * 4⌉₊ img.data

/-! ## The height-field mesh builder (`PreciseDepthMapModel`, `src/unnamed/part_001`) -/

/-- Grid dimension `Math.ceil(size / step)` for the chosen sampling step. -/
def gridDim (size step : ℕ) : ℕ := ⌈(size : ℚ) / (step : ℚ)⌉₊

/-- The vertex positions built by `PreciseDepthMapModel`: one vertex per
grid cell, sampling the depth raster at the nearest pixel, with world X/Y
spread over a `physicalScale`-sized footprint and Z scaled by the model
height. -/
noncomputable def meshVertices (img : ImgData) (physW physH modelHeight : ℝ)
    (step : ℕ) : List (ℝ × ℝ × ℝ) :=
  let gw := gridDim img.width step
  let gh := gridDim img.height step
  (List.range gh).flatMap fun y =>
    (List.range gw).map fun x =>
      let imgX := min (x * step) (img.width - 1)
      let imgY := min (y * step) (img.height - 1)
      let pixelIndex := (imgY * img.width + imgX) * 4
      let r := img.data pixelIndex
      let alpha := img.data (pixelIndex + 3)
      let depth : ℝ := if 32 < alpha then (r : ℝ) / 255 else 0
      let physicalScale : ℝ := 10
      let worldX := ((x : ℝ) / ((gw : ℝ) - 1) - 1 / 2) * physicalScale
      let worldY := (((gh : ℝ) - 1 - (y : ℝ)) / ((gh : ℝ) - 1) - 1 / 2) *
        physicalScale * (physH / physW)
      let worldZ := depth * modelHeight * (5 / 100)
      (worldX, worldY, worldZ)

/-- The triangle index list built by `PreciseDepthMapModel`: each grid quad
emits two triangles `(topLeft, bottomLeft, topRight)` and
`(topRight, bottomLeft, bottomRight)`. -/
def meshFaces (gw gh : ℕ) : List ℕ :=
  (List.range (gh - 1)).flatMap fun y =>
    (List.range (gw - 1)).flatMap fun x =>
      [y * gw + x, (y + 1) * gw + x, y * gw + (x + 1),
       y * gw + (x + 1), (y + 1) * gw + x, (y + 1) * gw + (x + 1)]

/-! ## Specification-side notions for the distance field claim

The claim measures the field against shortest 8-connected lattice paths
to edge pixels.  `EdgePath` enumerates such paths (built from an edge
pixel outward, through inside pixels); the remaining definitions are the
loop invariants and the termination potential of the propagation loop. -/

/-- Position `(x, y)` is an in-range pixel of the mask interior. -/
def InsidePx (contour : ℕ → Bool) (w h x y : ℕ) : Prop :=
  x < w ∧ y < h ∧ contour (y * w + x) = true

/-- There is an 8-connected path from some edge pixel to `(x, y)` through
inside pixels with total step cost `v` (orthogonal steps cost `1`,
diagonal steps `√2`). -/
inductive EdgePath (contour : ℕ → Bool) (w h : ℕ) : ℕ → ℕ → QSqrt2 → Prop where
  | edge : ∀ x y, InsidePx contour w h x y → isEdgePx contour w h x y = true →
      EdgePath contour w h x y ⟨0, 0⟩
  | step : ∀ (x y : ℕ) (v : QSqrt2) (d : ℤ × ℤ) (nx ny : ℕ),
      EdgePath contour w h x y v → d ∈ neighborOffsets →
      (nx : ℤ) = (x : ℤ) + d.1 → (ny : ℤ) = (y : ℤ) + d.2 →
      InsidePx contour w h nx ny →
      EdgePath contour w h nx ny (v.add (stepCost d))

/-- The set of real lengths of edge paths ending at `(x, y)`. -/
def pathLengths (contour : ℕ → Bool) (w h x y : ℕ) : Set ℝ :=
  fun r => ∃ v, EdgePath contour w h x y v ∧ v.toReal = r

/-- An 8-connected lattice walk between integer lattice points, with the
claimed step costs, not constrained to the raster or to the mask. -/
inductive LatticeWalk : ℤ × ℤ → ℤ × ℤ → QSqrt2 → Prop where
  | nil : ∀ p, LatticeWalk p p ⟨0, 0⟩
  | cons : ∀ (p q r : ℤ × ℤ) (v : QSqrt2) (d : ℤ × ℤ), d ∈ neighborOffsets →
      q = (p.1 + d.1, p.2 + d.2) → LatticeWalk q r v →
      LatticeWalk p r (v.add (stepCost d))

/-- Lengths of arbitrary 8-connected lattice walks from pixel `(x, y)` to
some edge pixel (mask-true with a mask-false 8-neighbour or on the image
boundary), exactly as the claim words the distance. -/
def walkLengths (contour : ℕ → Bool) (w h x y : ℕ) : Set ℝ :=
  fun r => ∃ (ex ey : ℕ) (v : QSqrt2),
    InsidePx contour w h ex ey ∧ isEdgePx contour w h ex ey = true ∧
    LatticeWalk ((x : ℤ), (y : ℤ)) ((ex : ℤ), (ey : ℤ)) v ∧ v.toReal = r

/-- A wellformed frontier entry: an inside pixel whose recorded distance is
the cost of an actual edge path, within the cap. -/
def EntryOK (contour : ℕ → Bool) (w h : ℕ) (maxD : ℚ) (ent : QEntry) : Prop :=
  InsidePx contour w h ent.x ent.y ∧
  EdgePath contour w h ent.x ent.y ent.dist ∧
  QSqrt2.ble ent.dist ⟨maxD, 0⟩ = true

/-- Wellformedness of the distance array: `-1` exactly off the interior;
inside pixels hold the cap or an attained capped path cost; edge pixels
hold `0`. -/
def DistsOK (contour : ℕ → Bool) (w h : ℕ) (maxD : ℚ) (dists : ℕ → QSqrt2) : Prop :=
  (∀ idx, ¬ (idx < w * h ∧ contour idx = true) → dists idx = ⟨-1, 0⟩) ∧
  (∀ x y, InsidePx contour w h x y →
    dists (y * w + x) = ⟨maxD, 0⟩ ∨
      (EdgePath contour w h x y (dists (y * w + x)) ∧
       QSqrt2.ble (dists (y * w + x)) ⟨maxD, 0⟩ = true)) ∧
  (∀ x y, InsidePx contour w h x y → isEdgePx contour w h x y = true →
    dists (y * w + x) = ⟨0, 0⟩)

/-- Pixel `(x, y)` is relaxed: no inside neighbour can be improved from its
recorded distance within the cap. -/
def RelaxedPx (contour : ℕ → Bool) (w h : ℕ) (maxD : ℚ) (dists : ℕ → QSqrt2)
    (x y : ℕ) : Prop :=
  ∀ d ∈ neighborOffsets, ∀ nx ny : ℕ,
    (nx : ℤ) = (x : ℤ) + d.1 → (ny : ℤ) = (y : ℤ) + d.2 →
    InsidePx contour w h nx ny →
    (dists (y * w + x)).toReal + (stepCost d).toReal ≤ (maxD : ℝ) →
    (dists (ny * w + nx)).toReal ≤ (dists (y * w + x)).toReal + (stepCost d).toReal

/-- Every inside neighbour of entry `e` at offset `d` satisfies the
relaxation bound relative to the entry distance. -/
def RelaxedFrom (contour : ℕ → Bool) (w h : ℕ) (maxD : ℚ) (e : QEntry)
    (d : ℤ × ℤ) (dists : ℕ → QSqrt2) : Prop :=
  ∀ nx ny : ℕ, (nx : ℤ) = (e.x : ℤ) + d.1 → (ny : ℤ) = (e.y : ℤ) + d.2 →
    InsidePx contour w h nx ny →
    e.dist.toReal + (stepCost d).toReal ≤ (maxD : ℝ) →
    (dists (ny * w + nx)).toReal ≤ e.dist.toReal + (stepCost d).toReal

/-- Loop invariant: the array is wellformed, queue entries are wellformed,
and every inside pixel has a queue entry carrying its current value or is
already relaxed. -/
def LoopOK (contour : ℕ → Bool) (w h : ℕ) (maxD : ℚ) (dists : ℕ → QSqrt2)
    (queue : List QEntry) : Prop :=
  DistsOK contour w h maxD dists ∧
  (∀ ent ∈ queue, EntryOK contour w h maxD ent) ∧
  (∀ x y, InsidePx contour w h x y →
    (∃ ent ∈ queue, ent.x = x ∧ ent.y = y ∧ ent.dist = dists (y * w + x)) ∨
    RelaxedPx contour w h maxD dists x y)

/-- Result of a finished run: wellformed distances and every inside pixel
relaxed. -/
def FinalOK (contour : ℕ → Bool) (w h : ℕ) (maxD : ℚ) (dists : ℕ → QSqrt2) : Prop :=
  DistsOK contour w h maxD dists ∧
  ∀ x y, InsidePx contour w h x y → RelaxedPx contour w h maxD dists x y

/-- All candidate step-sum values `a + b·√2` with coefficients bounded by
`⌈maxDistance⌉`: every capped path cost lies in this set. -/
def distValues (maxD : ℚ) : Finset QSqrt2 :=
  (Finset.range (⌈maxD⌉₊ + 1) ×ˢ Finset.range (⌈maxD⌉₊ + 1)).image
    fun ab => ⟨(ab.1 : ℚ), (ab.2 : ℚ)⟩

/-- Rank of a value: how many candidate values lie strictly below it. -/
def distRank (maxD : ℚ) (v : QSqrt2) : ℕ :=
  ((distValues maxD).filter fun s => QSqrt2.blt s v = true).card

/-- Termination potential of the distance array: every strict improvement
of a pixel decreases it. -/
def spfaPotential (w h : ℕ) (maxD : ℚ) (dists : ℕ → QSqrt2) : ℕ :=
  ∑ idx ∈ Finset.range (w * h), distRank maxD (dists idx)

/-- Claim C3's chamfered profile, worded as the spec words it:
`floor (255 · clamp (distance·tan(angle) / max (edgeWidth·tan(angle), edgeWidth), 0, 1))`
below the edge band, `255` past it. -/
noncomputable def chamferedDepthSpec (distance edgeWidth angle : ℝ) : ℤ :=
  if edgeWidth ≤ distance then 255
  else
    ⌊255 * max 0 (min 1 ((distance * Real.tan (angle * Real.pi / 180)) /
        max (edgeWidth * Real.tan (angle * Real.pi / 180)) edgeWidth))⌋

/-! ## Order and arithmetic facts for `QSqrt2` -/

namespace QSqrt2

theorem sqrt_two_sq : Real.sqrt 2 ^ 2 = 2 := Real.sq_sqrt (by norm_num)

theorem sqrt_two_pos : (0 : ℝ) < Real.sqrt 2 := Real.sqrt_pos.mpr (by norm_num)

/-- Squaring criterion for `a ≤ c·√2` over the reals. -/
theorem le_mul_sqrt_two_iff (a c : ℝ) :
    a ≤ c * Real.sqrt 2 ↔
      (0 ≤ c ∧ (a ≤ 0 ∨ a ^ 2 ≤ 2 * c ^ 2)) ∨
      (¬ 0 ≤ c ∧ (a ≤ 0 ∧ 2 * c ^ 2 ≤ a ^ 2)) := by
  have s2 := sqrt_two_sq
  have spos := sqrt_two_pos
  constructor
  · intro h
    by_cases hc : 0 ≤ c
    · refine Or.inl ⟨hc, ?_⟩
      by_cases ha : a ≤ 0
      · exact Or.inl ha
      · push_neg at ha
        refine Or.inr ?_
        have h1 : a * a ≤ (c * Real.sqrt 2) * (c * Real.sqrt 2) :=
          mul_self_le_mul_self ha.le h
        nlinarith [h1]
    · push_neg at hc
      have hneg : c * Real.sqrt 2 < 0 := mul_neg_of_neg_of_pos hc spos
      have ha : a ≤ 0 := le_of_lt (lt_of_le_of_lt h hneg)
      refine Or.inr ⟨not_le.mpr hc, ha, ?_⟩
      have h1 : (- (c * Real.sqrt 2)) * (- (c * Real.sqrt 2)) ≤ (-a) * (-a) :=
        mul_self_le_mul_self (by linarith) (by linarith)
      nlinarith [h1]
  · rintro (⟨hc, ha | ha⟩ | ⟨hc, ha, h2⟩)
    · exact le_trans ha (mul_nonneg hc spos.le)
    · have h1 : a ≤ |a| := le_abs_self a
      have h2 : |a| = Real.sqrt (a ^ 2) := (Real.sqrt_sq_eq_abs a).symm
      have h3 : Real.sqrt (a ^ 2) ≤ Real.sqrt (2 * c ^ 2) := Real.sqrt_le_sqrt ha
      have h4 : Real.sqrt (2 * c ^ 2) = Real.sqrt 2 * Real.sqrt (c ^ 2) :=
        Real.sqrt_mul (by norm_num) _
      have h5 : Real.sqrt (c ^ 2) = |c| := Real.sqrt_sq_eq_abs c
      have h6 : |c| = c := abs_of_nonneg hc
      calc a ≤ |a| := h1
        _ = Real.sqrt (a ^ 2) := h2
        _ ≤ Real.sqrt (2 * c ^ 2) := h3
        _ = Real.sqrt 2 * |c| := by rw [h4, h5]
        _ = c * Real.sqrt 2 := by rw [h6]; ring
    · push_neg at hc
      have h3 : Real.sqrt (2 * c ^ 2) ≤ Real.sqrt (a ^ 2) := Real.sqrt_le_sqrt h2
      have h4 : Real.sqrt (a ^ 2) = |a| := Real.sqrt_sq_eq_abs a
      have h5 : |a| = -a := abs_of_nonpos ha
      have h6 : Real.sqrt (2 * c ^ 2) = Real.sqrt 2 * |c| := by
        rw [Real.sqrt_mul (by norm_num) _, Real.sqrt_sq_eq_abs]
      have h7 : |c| = -c := abs_of_nonpos hc.le
      have h8 : Real.sqrt 2 * (-c) ≤ -a := by
        rw [← h7, ← h6, ← h5, ← h4]; exact h3
      nlinarith [h8]

/-- The boolean order test agrees with the real order. -/
theorem ble_iff (v w : QSqrt2) : ble v w = true ↔ v.toReal ≤ w.toReal := by
  have key : v.toReal ≤ w.toReal ↔
      ((v.q : ℝ) - w.q) ≤ ((w.s : ℝ) - v.s) * Real.sqrt 2 := by
    unfold toReal; constructor <;> intro h <;> nlinarith [h]
  rw [key, le_mul_sqrt_two_iff]
  unfold ble
  by_cases hc : (0 : ℚ) ≤ w.s - v.s
  · have hc' : (0 : ℝ) ≤ (w.s : ℝ) - v.s := by exact_mod_cast hc
    rw [if_pos hc]
    simp only [Bool.or_eq_true, decide_eq_true_eq]
    constructor
    · rintro (h | h)
      · exact Or.inl ⟨hc', Or.inl (by exact_mod_cast h)⟩
      · exact Or.inl ⟨hc', Or.inr (by exact_mod_cast h)⟩
    · rintro (⟨_, h | h⟩ | ⟨hn, _⟩)
      · exact Or.inl (by exact_mod_cast h)
      · exact Or.inr (by exact_mod_cast h)
      · exact absurd hc' hn
  · have hc' : ¬ (0 : ℝ) ≤ (w.s : ℝ) - v.s := by
      intro h; exact hc (by exact_mod_cast h)
    rw [if_neg hc]
    simp only [Bool.and_eq_true, decide_eq_true_eq]
    constructor
    · rintro ⟨h1, h2⟩
      exact Or.inr ⟨hc', by exact_mod_cast h1, by exact_mod_cast h2⟩
    · rintro (⟨h, _⟩ | ⟨_, h1, h2⟩)
      · exact absurd h hc'
      · exact ⟨by exact_mod_cast h1, by exact_mod_cast h2⟩

/-- The boolean strict order test agrees with the real strict order. -/
theorem blt_iff (v w : QSqrt2) : blt v w = true ↔ v.toReal < w.toReal := by
  have h := ble_iff w v
  unfold blt
  rw [← not_le, ← h]
  cases hb : ble w v <;> simp

theorem toReal_add (v w : QSqrt2) : (add v w).toReal = v.toReal + w.toReal := by
  unfold add toReal; push_cast; ring

theorem toReal_mk (a b : ℚ) :
    toReal ⟨a, b⟩ = (a : ℝ) + (b : ℝ) * Real.sqrt 2 := rfl

end QSqrt2

/-! ## Claims about the depth profiles -/

/-- Claim C2, counterexample to strict monotonicity: with `edgeWidth = 1`,
the distances `0` and `1/200000` are distinct points of `[0, edgeWidth)`
whose floored rounded depths coincide (both `0`), so the depth is not
strictly increasing in distance over `[0, edgeWidth)`. -/
theorem roundedDepth_not_strictMono :
    (0 : ℝ) ≤ 0 ∧ (0 : ℝ) < 1 / 200000 ∧ (1 / 200000 : ℝ) < 1 ∧
    calculateRoundedDepth 0 1 = 0 ∧ calculateRoundedDepth (1 / 200000) 1 = 0 := by
  refine ⟨le_refl 0, by norm_num, by norm_num, ?_, ?_⟩
  · unfold calculateRoundedDepth
    rw [if_neg (by norm_num : ¬ (1 : ℝ) ≤ 0)]
    norm_num
  · unfold calculateRoundedDepth
    rw [if_neg (by norm_num : ¬ (1 : ℝ) ≤ 1 / 200000)]
    have harg : (1 : ℝ) - (1 - 1 / 200000 / 1) * (1 - 1 / 200000 / 1)
        = 399999 / 40000000000 := by norm_num
    rw [harg]
    have hlt : Real.sqrt (399999 / 40000000000) < 1 / 255 := by
      rw [Real.sqrt_lt' (by norm_num)]
      norm_num
    have h0 : (0 : ℝ) ≤ Real.sqrt (399999 / 40000000000) * 255 :=
      mul_nonneg (Real.sqrt_nonneg _) (by norm_num)
    have h1 : Real.sqrt (399999 / 40000000000) * 255 < 1 := by nlinarith [hlt]
    have hfl : ⌊Real.sqrt (399999 / 40000000000) * 255⌋ = 0 :=
      Int.floor_eq_zero_iff.mpr ⟨h0, h1⟩
    rw [hfl]
    norm_num

/-- Claim C2 as amended: for `edgeWidth = W > 0` the rounded depth is
exactly `255` for `distance ≥ W`; on `[0, W)` it equals
`⌊255·√(1-(1-distance/W)²)⌋`; and it is non-decreasing (not strictly
increasing) in distance. -/
theorem roundedDepth_profile :
    (∀ d W : ℝ, 0 < W → W ≤ d → calculateRoundedDepth d W = 255) ∧
    (∀ d W : ℝ, 0 < W → 0 ≤ d → d < W →
      calculateRoundedDepth d W = ⌊255 * Real.sqrt (1 - (1 - d / W) ^ 2)⌋) ∧
    (∀ d₁ d₂ W : ℝ, 0 < W → 0 ≤ d₁ → d₁ ≤ d₂ →
      calculateRoundedDepth d₁ W ≤ calculateRoundedDepth d₂ W) := by
  have harg_mem : ∀ d W : ℝ, 0 < W → 0 ≤ d → d < W →
      (0 : ℝ) ≤ 1 - (1 - d / W) * (1 - d / W) ∧
      (1 : ℝ) - (1 - d / W) * (1 - d / W) ≤ 1 := by
    intro d W hW hd hdW
    have ht0 : 0 ≤ d / W := div_nonneg hd hW.le
    have ht1 : d / W < 1 := (div_lt_one hW).mpr hdW
    constructor <;> nlinarith [ht0, ht1]
  have hval : ∀ d W : ℝ, 0 < W → 0 ≤ d → d < W →
      (0 : ℤ) ≤ ⌊Real.sqrt (1 - (1 - d / W) * (1 - d / W)) * 255⌋ ∧
      ⌊Real.sqrt (1 - (1 - d / W) * (1 - d / W)) * 255⌋ ≤ 255 := by
    intro d W hW hd hdW
    obtain ⟨ha0, ha1⟩ := harg_mem d W hW hd hdW
    have hs0 : (0 : ℝ) ≤ Real.sqrt (1 - (1 - d / W) * (1 - d / W)) :=
      Real.sqrt_nonneg _
    have hs1 : Real.sqrt (1 - (1 - d / W) * (1 - d / W)) ≤ 1 :=
      Real.sqrt_le_one.mpr ha1
    constructor
    · exact Int.floor_nonneg.mpr (by nlinarith)
    · have : Real.sqrt (1 - (1 - d / W) * (1 - d / W)) * 255 ≤ ((255 : ℤ) : ℝ) := by
        push_cast; nlinarith
      exact Int.le_floor.mp (by simpa using Int.floor_le_floor this)
  refine ⟨?_, ?_, ?_⟩
  · intro d W _ hWd
    unfold calculateRoundedDepth
    rw [if_pos hWd]
  · intro d W hW hd hdW
    unfold calculateRoundedDepth
    rw [if_neg (not_le.mpr hdW)]
    obtain ⟨hf0, hf255⟩ := hval d W hW hd hdW
    rw [min_eq_right hf255, max_eq_right hf0]
    congr 1
    rw [mul_comm, sq]
  · intro d₁ d₂ W hW hd₁ h12
    unfold calculateRoundedDepth
    by_cases h1 : W ≤ d₁
    · rw [if_pos h1, if_pos (le_trans h1 h12)]
    · rw [if_neg h1]
      by_cases h2 : W ≤ d₂
      · rw [if_pos h2]
        exact max_le (by norm_num) (le_trans (min_le_left _ _) (by norm_num))
      · rw [if_neg h2]
        push_neg at h1 h2
        have ht12 : d₁ / W ≤ d₂ / W := by gcongr
        have ht2 : d₂ / W < 1 := (div_lt_one hW).mpr h2
        have hsq : (1 - d₂ / W) * (1 - d₂ / W) ≤ (1 - d₁ / W) * (1 - d₁ / W) := by
          nlinarith [ht12, ht2]
        have hargle : 1 - (1 - d₁ / W) * (1 - d₁ / W) ≤
            1 - (1 - d₂ / W) * (1 - d₂ / W) := by linarith
        have hsqrtle := Real.sqrt_le_sqrt hargle
        have hmul : Real.sqrt (1 - (1 - d₁ / W) * (1 - d₁ / W)) * 255 ≤
            Real.sqrt (1 - (1 - d₂ / W) * (1 - d₂ / W)) * 255 := by nlinarith
        exact max_le_max (le_refl 0)
          (min_le_min (le_refl 255) (Int.floor_le_floor hmul))

/-- Witness for `roundedDepth_profile` at concrete inputs. -/
theorem roundedDepth_profile_witness :
    calculateRoundedDepth 2 1 = 255 ∧
    calculateRoundedDepth 0 2 = ⌊255 * Real.sqrt (1 - (1 - 0 / 2) ^ 2)⌋ ∧
    calculateRoundedDepth 1 2 ≤ calculateRoundedDepth (3 / 2) 2 :=
  ⟨roundedDepth_profile.1 2 1 (by norm_num) (by norm_num),
   roundedDepth_profile.2.1 0 2 (by norm_num) (le_refl 0) (by norm_num),
   roundedDepth_profile.2.2 1 (3 / 2) 2 (by norm_num) (by norm_num) (by norm_num)⟩

/-- Claim C3: for `edgeWidth > 0`, `angle ∈ (0°, 90°)` and `distance ≥ 0`
the chamfered depth of the source agrees with the spec formula
`255` past the band, `⌊255·clamp(d·tan θ / max(W·tan θ, W), 0, 1)⌋` inside it. -/
theorem chamferedDepth_matches_spec :
    ∀ d W θ : ℝ, 0 < W → 0 < θ → θ < 90 → 0 ≤ d →
      calculateChamferedDepth d W θ = chamferedDepthSpec d W θ := by
  intro d W θ hW hθ0 hθ90 hd
  simp only [calculateChamferedDepth, chamferedDepthSpec]
  by_cases hdW : W ≤ d
  · rw [if_pos hdW, if_pos hdW]
  · rw [if_neg hdW, if_neg hdW]
    set T := Real.tan (θ * Real.pi / 180) with hT
    have key : ∀ r : ℝ, max 0 (min 255 (r * 255)) = 255 * max 0 (min 1 r) := by
      intro r
      rcases le_total r 0 with hr | hr
      · rw [min_eq_right (show r ≤ (1 : ℝ) by linarith),
          max_eq_left hr, mul_zero,
          min_eq_right (show r * 255 ≤ (255 : ℝ) by nlinarith),
          max_eq_left (show r * 255 ≤ (0 : ℝ) by nlinarith)]
      · rcases le_total r 1 with hr1 | hr1
        · rw [min_eq_right hr1, max_eq_right hr,
            min_eq_right (show r * 255 ≤ (255 : ℝ) by nlinarith),
            max_eq_right (show (0 : ℝ) ≤ r * 255 by nlinarith)]
          ring
        · rw [min_eq_left hr1, max_eq_right (show (0 : ℝ) ≤ 1 by norm_num),
            min_eq_left (show (255 : ℝ) ≤ r * 255 by nlinarith),
            max_eq_right (show (0 : ℝ) ≤ 255 by norm_num)]
          ring
    by_cases hcap : W < W * T
    · rw [if_pos hcap, max_eq_left hcap.le, key (d * T / (W * T))]
    · rw [if_neg hcap, max_eq_right (not_lt.mp hcap), key (d * T / W)]

/-- Witness for `chamferedDepth_matches_spec` at a concrete input. -/
theorem chamferedDepth_matches_spec_witness :
    calculateChamferedDepth 0 1 45 = chamferedDepthSpec 0 1 45 :=
  chamferedDepth_matches_spec 0 1 45 (by norm_num) (by norm_num) (by norm_num)
    (le_refl 0)

/-- Claim C9: for a chamfer angle strictly below 45°, every depth inside
the edge band is bounded by `⌊255·tan θ⌋`, which is strictly below `255`,
so the profile jumps to `255` at `distance = edgeWidth` instead of meeting
it continuously. -/
theorem chamferedDepth_small_angle_cap :
    ∀ d W θ : ℝ, 0 < W → 0 < θ → θ < 45 → 0 ≤ d → d < W →
      calculateChamferedDepth d W θ ≤ ⌊(255 : ℝ) * Real.tan (θ * Real.pi / 180)⌋ ∧
      ⌊(255 : ℝ) * Real.tan (θ * Real.pi / 180)⌋ < 255 := by
  intro d W θ hW hθ0 hθ45 hd hdW
  have hπ := Real.pi_pos
  have hr0 : 0 < θ * Real.pi / 180 := by positivity
  have hr4 : θ * Real.pi / 180 < Real.pi / 4 := by nlinarith
  have hr2 : θ * Real.pi / 180 < Real.pi / 2 := by nlinarith
  have hT0 : 0 < Real.tan (θ * Real.pi / 180) :=
    Real.tan_pos_of_pos_of_lt_pi_div_two hr0 hr2
  have hT1 : Real.tan (θ * Real.pi / 180) < 1 := by
    have := Real.tan_lt_tan_of_nonneg_of_lt_pi_div_two hr0.le
      (by nlinarith : Real.pi / 4 < Real.pi / 2) hr4
    rwa [Real.tan_pi_div_four] at this
  set T := Real.tan (θ * Real.pi / 180) with hTdef
  constructor
  · simp only [calculateChamferedDepth]
    rw [if_neg (not_le.mpr hdW)]
    have hcap : ¬ W < W * T := by nlinarith
    rw [if_neg hcap]
    apply Int.floor_le_floor
    have hd1 : d / W ≤ 1 := (div_le_one hW).mpr hdW.le
    have hnh : d * T / W * 255 ≤ 255 * T := by
      rw [div_mul_eq_mul_div, div_le_iff₀ hW]
      nlinarith
    exact max_le (by nlinarith) (le_trans (min_le_right _ _) hnh)
  · rw [Int.floor_lt]
    push_cast
    nlinarith

/-- Witness for `chamferedDepth_small_angle_cap` at a concrete input. -/
theorem chamferedDepth_small_angle_cap_witness :
    calculateChamferedDepth 0 1 30 ≤ ⌊(255 : ℝ) * Real.tan (30 * Real.pi / 180)⌋ ∧
    ⌊(255 : ℝ) * Real.tan (30 * Real.pi / 180)⌋ < 255 :=
  chamferedDepth_small_angle_cap 0 1 30 (by norm_num) (by norm_num) (by norm_num)
    (le_refl 0) (by norm_num)

/-! ## Claims about the whole edge processor -/

theorem clampByte_natCast_of_le {n : ℕ} (h : n ≤ 255) : clampByte (n : ℤ) = n := by
  unfold clampByte
  rw [max_eq_right (by positivity : (0 : ℤ) ≤ (n : ℤ)),
    min_eq_right (by exact_mod_cast h : (n : ℤ) ≤ 255)]
  exact Int.toNat_natCast n

/-- Claim C4: with the vertical style, every depth channel byte is `255`
exactly when the pixel alpha exceeds `32` and `0` otherwise, for every
`edgeWidth` and every `chamferAngle` (neither occurs on the right-hand
side); in particular the depth channel is binary. -/
theorem vertical_depth_binary :
    ∀ (img : ImgData) (W : ℚ) (θ : ℝ) (idx : ℕ),
      idx / 4 < img.width * img.height → idx % 4 ≠ 3 →
      processImageWithEdges img ⟨EdgeType.vertical, W, θ⟩ idx =
        if 32 < img.data (idx / 4 * 4 + 3) then 255 else 0 := by
  intro img W θ idx hp hc
  simp only [processImageWithEdges]
  rw [if_pos hp, if_pos trivial, if_neg hc]
  by_cases ha : 32 < img.data (idx / 4 * 4 + 3)
  · rw [if_pos ha, if_pos ha]; decide
  · rw [if_neg ha, if_neg ha]; decide

/-- Witness for `vertical_depth_binary` on a concrete opaque 1×1 raster. -/
theorem vertical_depth_binary_witness :
    processImageWithEdges ⟨1, 1, fun _ => 255⟩ ⟨EdgeType.vertical, 5, 45⟩ 0 =
      if 32 < (⟨1, 1, fun _ => 255⟩ : ImgData).data (0 / 4 * 4 + 3) then 255 else 0 :=
  vertical_depth_binary ⟨1, 1, fun _ => 255⟩ 5 45 0 (by norm_num) (by norm_num)

/-- Claim C5: in every style, a pixel with alpha at most `32` produces `0`
in all four output channels (depth `0` in R, G, B and alpha `0`). -/
theorem outside_pixels_zero :
    ∀ (img : ImgData) (options : EdgeProcessorOptions) (p c : ℕ),
      p < img.width * img.height → c < 4 →
      img.data (p * 4 + 3) ≤ 32 →
      processImageWithEdges img options (4 * p + c) = 0 := by
  intro img options p c hp hc ha
  have hdiv : (4 * p + c) / 4 = p := by omega
  have hmod : (4 * p + c) % 4 = c := by omega
  have hna : ¬ 32 < img.data (p * 4 + 3) := not_lt.mpr ha
  simp only [processImageWithEdges]
  rw [hdiv, hmod, if_pos hp]
  by_cases hv : options.edgeType = EdgeType.vertical
  · rw [if_pos hv]
    by_cases hc3 : c = 3
    · rw [if_pos hc3, if_neg hna]; rfl
    · rw [if_neg hc3, if_neg hna]; rfl
  · rw [if_neg hv]
    by_cases hc3 : c = 3
    · rw [if_pos hc3, if_neg hna]; rfl
    · rw [if_neg hc3, if_neg (fun hh => hna (And.left hh))]; rfl

/-- Witness for `outside_pixels_zero` on a concrete transparent 1×1 raster. -/
theorem outside_pixels_zero_witness :
    processImageWithEdges ⟨1, 1, fun _ => 0⟩ ⟨EdgeType.rounded, 2, 45⟩ 0 = 0 :=
  outside_pixels_zero ⟨1, 1, fun _ => 0⟩ ⟨EdgeType.rounded, 2, 45⟩ 0 0
    (by norm_num) (by norm_num) (by norm_num)

/-- Claim C10: in every style, a pixel with alpha above `32` has its
original alpha byte copied unchanged to the output alpha channel (it is
not forced to `255`), so output alpha may carry any byte in `33..255`. -/
theorem inside_alpha_preserved :
    ∀ (img : ImgData) (options : EdgeProcessorOptions) (p : ℕ),
      p < img.width * img.height →
      32 < img.data (p * 4 + 3) → img.data (p * 4 + 3) ≤ 255 →
      processImageWithEdges img options (4 * p + 3) = img.data (p * 4 + 3) := by
  intro img options p hp ha hb
  have hdiv : (4 * p + 3) / 4 = p := by omega
  have hmod : (4 * p + 3) % 4 = 3 := by omega
  simp only [processImageWithEdges]
  rw [hdiv, hmod, if_pos hp]
  by_cases hv : options.edgeType = EdgeType.vertical
  · rw [if_pos hv, if_pos rfl, if_pos ha]
    exact clampByte_natCast_of_le hb
  · rw [if_neg hv, if_pos rfl, if_pos ha]
    exact clampByte_natCast_of_le hb

/-- Witness for `inside_alpha_preserved` on a 1×1 raster of alpha `100`. -/
theorem inside_alpha_preserved_witness :
    processImageWithEdges ⟨1, 1, fun _ => 100⟩ ⟨EdgeType.rounded, 2, 45⟩ 3 =
      (⟨1, 1, fun _ => 100⟩ : ImgData).data (0 * 4 + 3) :=
  inside_alpha_preserved ⟨1, 1, fun _ => 100⟩ ⟨EdgeType.rounded, 2, 45⟩ 0
    (by norm_num) (by norm_num) (by norm_num)

/-- Claim C6 counterexample: `processImageWithEdges` does not fail on
`edgeWidth ≤ 0` or on a chamfer angle outside `(0, 90)`: it returns an
ordinary depth raster.  Concretely, a 1×1 opaque raster processed with
vertical style and `edgeWidth = -1` yields the byte `255`, and a 1×1
transparent raster with chamfered style and angle `120` yields the
bytes `0`; no `InvalidParameterError` exists in the code. -/
theorem processImageWithEdges_no_failure :
    processImageWithEdges ⟨1, 1, fun _ => 255⟩ ⟨EdgeType.vertical, -1, 45⟩ 0 = 255 ∧
    processImageWithEdges ⟨1, 1, fun _ => 0⟩ ⟨EdgeType.chamfered, 1, 120⟩ 0 = 0 ∧
    processImageWithEdges ⟨1, 1, fun _ => 0⟩ ⟨EdgeType.chamfered, 1, 120⟩ 3 = 0 := by
  refine ⟨?_, ?_, ?_⟩
  · simp only [processImageWithEdges]
    norm_num [clampByte]
    decide
  · exact outside_pixels_zero ⟨1, 1, fun _ => 0⟩ ⟨EdgeType.chamfered, 1, 120⟩ 0 0
      (by norm_num) (by norm_num) (by norm_num)
  · exact outside_pixels_zero ⟨1, 1, fun _ => 0⟩ ⟨EdgeType.chamfered, 1, 120⟩ 0 3
      (by norm_num) (by norm_num) (by norm_num)

/-- Claim C6 as amended: out-of-range parameters (`edgeWidth ≤ 0`, or a
chamfer angle outside `(0, 90)`) are not rejected and not clamped: the
pipeline still produces a depth raster by the ordinary per-pixel rules —
shown here by the alpha channel following the standard
alpha-above-32-kept / otherwise-0 rule for every pixel. -/
theorem invalid_parameters_still_processed :
    ∀ (img : ImgData) (options : EdgeProcessorOptions) (p : ℕ),
      p < img.width * img.height →
      (options.edgeWidth ≤ 0 ∨ options.chamferAngle < 0 ∨ 90 ≤ options.chamferAngle) →
      processImageWithEdges img options (4 * p + 3) =
        clampByte (if 32 < img.data (p * 4 + 3) then (img.data (p * 4 + 3) : ℤ) else 0) := by
  intro img options p hp _
  have hdiv : (4 * p + 3) / 4 = p := by omega
  have hmod : (4 * p + 3) % 4 = 3 := by omega
  simp only [processImageWithEdges]
  rw [hdiv, hmod, if_pos hp]
  by_cases hv : options.edgeType = EdgeType.vertical
  · rw [if_pos hv, if_pos rfl]
  · rw [if_neg hv, if_pos rfl]

/-- Witness for `invalid_parameters_still_processed` with `edgeWidth = 0`. -/
theorem invalid_parameters_still_processed_witness :
    processImageWithEdges ⟨1, 1, fun _ => 200⟩ ⟨EdgeType.rounded, 0, 45⟩ 3 =
      clampByte (if 32 < (⟨1, 1, fun _ => 200⟩ : ImgData).data (0 * 4 + 3)
        then ((⟨1, 1, fun _ => 200⟩ : ImgData).data (0 * 4 + 3) : ℤ) else 0) :=
  invalid_parameters_still_processed ⟨1, 1, fun _ => 200⟩ ⟨EdgeType.rounded, 0, 45⟩ 0
    (by norm_num) (Or.inl (le_refl 0))

/-! ## Claim about the mesh builder -/

/-- Claim C7: for every depth raster and sampling step in `{1, 2, 4, 8}`,
the grid is `⌈w/s⌉ × ⌈h/s⌉`, the mesh has exactly `gridWidth·gridHeight`
vertices and `2·(gridWidth-1)·(gridHeight-1)` triangles (`3` indices
each), and every triangle index addresses a valid vertex. -/
theorem mesh_topology :
    ∀ (img : ImgData) (physW physH mh : ℝ) (step : ℕ),
      step = 1 ∨ step = 2 ∨ step = 4 ∨ step = 8 →
      1 ≤ img.width → 1 ≤ img.height →
      gridDim img.width step = ⌈(img.width : ℚ) / (step : ℚ)⌉₊ ∧
      (meshVertices img physW physH mh step).length =
        gridDim img.width step * gridDim img.height step ∧
      (meshFaces (gridDim img.width step) (gridDim img.height step)).length =
        3 * (2 * (gridDim img.width step - 1) * (gridDim img.height step - 1)) ∧
      ∀ i ∈ meshFaces (gridDim img.width step) (gridDim img.height step),
        i < gridDim img.width step * gridDim img.height step := by
  intro img physW physH mh step _ _ _
  refine ⟨rfl, ?_, ?_, ?_⟩
  · simp only [meshVertices]
    rw [List.length_flatMap]
    simp only [Function.comp_def, List.length_map, List.length_range]
    simp [List.map_const', mul_comm]
  · simp only [meshFaces]
    rw [List.length_flatMap]
    simp only [Function.comp_def, List.length_flatMap, List.length_cons,
      List.length_nil]
    simp [List.map_const']
    ring
  · intro i hi
    set gw := gridDim img.width step with hgw
    set gh := gridDim img.height step with hgh
    simp only [meshFaces, List.mem_flatMap, List.mem_range] at hi
    obtain ⟨y, hy, x, hx, hmem⟩ := hi
    have hy2 : y + 2 ≤ gh := by omega
    have hx2 : x + 2 ≤ gw := by omega
    have hbr : (y + 1) * gw + (x + 1) < gw * gh := by
      have h1 : (y + 1) * gw + (x + 1) < (y + 1) * gw + gw :=
        Nat.add_lt_add_left (by omega) _
      have h2 : (y + 1) * gw + gw = (y + 2) * gw := by ring
      have h3 : (y + 2) * gw ≤ gh * gw := Nat.mul_le_mul_right gw hy2
      calc (y + 1) * gw + (x + 1) < (y + 2) * gw := by rw [← h2]; exact h1
        _ ≤ gh * gw := h3
        _ = gw * gh := Nat.mul_comm gh gw
    have hmono : y * gw ≤ (y + 1) * gw := Nat.mul_le_mul_right gw (by omega)
    simp only [List.mem_cons, List.not_mem_nil, or_false] at hmem
    rcases hmem with rfl | rfl | rfl | rfl | rfl | rfl <;> linarith [hbr, hmono]

/-- Witness for `mesh_topology` on a concrete 3×2 raster with step 2. -/
theorem mesh_topology_witness :
    gridDim 3 2 = ⌈(3 : ℚ) / (2 : ℚ)⌉₊ ∧
    (meshVertices ⟨3, 2, fun _ => 0⟩ 3 2 1 2).length = gridDim 3 2 * gridDim 2 2 ∧
    (meshFaces (gridDim 3 2) (gridDim 2 2)).length =
      3 * (2 * (gridDim 3 2 - 1) * (gridDim 2 2 - 1)) ∧
    ∀ i ∈ meshFaces (gridDim 3 2) (gridDim 2 2), i < gridDim 3 2 * gridDim 2 2 :=
  mesh_topology ⟨3, 2, fun _ => 0⟩ 3 2 1 2 (Or.inr (Or.inl rfl))
    (by norm_num) (by norm_num)

/-! ## Claim about the edge smoother -/

theorem smoothingPass_untouched (img : ImgData) (s : ℚ) (cur : ℕ → ℕ) (idx : ℕ)
    (h : ¬ (idx / 4 < img.width * img.height ∧
        isEdgePixel img ((idx / 4 % img.width : ℕ) : ℤ)
          ((idx / 4 / img.width : ℕ) : ℤ) = true)) :
    smoothingPass img s cur idx = cur idx := by
  simp only [smoothingPass]
  rw [if_neg h]

theorem smoothingPass_alpha (img : ImgData) (s : ℚ) (cur : ℕ → ℕ) (p : ℕ)
    (h : cur (p * 4 + 3) ≤ 255) :
    smoothingPass img s cur (4 * p + 3) = cur (4 * p + 3) := by
  simp only [smoothingPass]
  have hdiv : (4 * p + 3) / 4 = p := by omega
  have hmod : (4 * p + 3) % 4 = 3 := by omega
  rw [hdiv, hmod]
  by_cases hc : p < img.width * img.height ∧
      isEdgePixel img ((p % img.width : ℕ) : ℤ) ((p / img.width : ℕ) : ℤ) = true
  · rw [if_pos hc, if_pos rfl, clampByte_natCast_of_le h]
    congr 1
    ring
  · rw [if_neg hc]

/-- Claim C8: the smoother modifies only near-edge pixels — a pixel off the
raster or whose eight neighbour depth reads all lie within `8` of its own
keeps all its bytes — and the alpha channel of every pixel, near-edge ones
included, is passed through byte-identically. -/
theorem smoothing_frame :
    (∀ (img : ImgData) (s : ℚ) (idx : ℕ),
      ¬ (idx / 4 < img.width * img.height ∧
          isEdgePixel img ((idx / 4 % img.width : ℕ) : ℤ)
            ((idx / 4 / img.width : ℕ) : ℤ) = true) →
      intelligentEdgeSmoothing img s idx = img.data idx) ∧
    (∀ (img : ImgData) (s : ℚ) (p : ℕ),
      img.data (p * 4 + 3) ≤ 255 →
      intelligentEdgeSmoothing img s (4 * p + 3) = img.data (4 * p + 3)) := by
  constructor
  · intro img s idx h
    unfold intelligentEdgeSmoothing
    generalize ⌈s * 4⌉₊ = n
    induction n with
    | zero => rfl
    | succ n ih =>
      rw [Function.iterate_succ_apply', smoothingPass_untouched img s _ idx h, ih]
  · intro img s p h
    unfold intelligentEdgeSmoothing
    generalize ⌈s * 4⌉₊ = n
    have key : ∀ n : ℕ,
        Nat.iterate (smoothingPass img s) n img.data (4 * p + 3) =
          img.data (4 * p + 3) := by
      intro n
      induction n with
      | zero => rfl
      | succ n ih =>
        rw [Function.iterate_succ_apply']
        have hcur : Nat.iterate (smoothingPass img s) n img.data (p * 4 + 3) ≤ 255 := by
          rw [show p * 4 + 3 = 4 * p + 3 by ring, ih,
            show 4 * p + 3 = p * 4 + 3 by ring]
          exact h
        rw [smoothingPass_alpha img s _ p hcur, ih]
    exact key n

/-- Witness for `smoothing_frame` on a constant 2×2 raster (no near-edge
pixels) with strength `3/5`. -/
theorem smoothing_frame_witness :
    intelligentEdgeSmoothing ⟨2, 2, fun _ => 0⟩ (3 / 5) 0 =
      (⟨2, 2, fun _ => 0⟩ : ImgData).data 0 ∧
    intelligentEdgeSmoothing ⟨2, 2, fun _ => 0⟩ (3 / 5) (4 * 0 + 3) =
      (⟨2, 2, fun _ => 0⟩ : ImgData).data (4 * 0 + 3) :=
  ⟨smoothing_frame.1 ⟨2, 2, fun _ => 0⟩ (3 / 5) 0
     (by norm_num [isEdgePixel, getPixelValue, neighborOffsets]),
   smoothing_frame.2 ⟨2, 2, fun _ => 0⟩ (3 / 5) 0 (by norm_num)⟩

/-! ## Distance-field loop: auxiliary facts -/

theorem QSqrt2.toReal_ofRat (a : ℚ) : QSqrt2.toReal ⟨a, 0⟩ = (a : ℝ) := by
  rw [QSqrt2.toReal_mk]; push_cast; ring

theorem QSqrt2.blt_self_eq_false (v : QSqrt2) : QSqrt2.blt v v = false := by
  cases hb : QSqrt2.blt v v
  · rfl
  · exact absurd ((QSqrt2.blt_iff v v).mp hb) (lt_irrefl _)

theorem one_le_sqrt_two : (1 : ℝ) ≤ Real.sqrt 2 := by
  nlinarith [QSqrt2.sqrt_two_sq, QSqrt2.sqrt_two_pos]

theorem stepCost_split (d : ℤ × ℤ) : stepCost d = ⟨1, 0⟩ ∨ stepCost d = ⟨0, 1⟩ := by
  unfold stepCost
  by_cases hd : d.1 = 0 ∨ d.2 = 0
  · rw [if_pos hd]; exact Or.inl rfl
  · rw [if_neg hd]; exact Or.inr rfl

theorem stepCost_pos (d : ℤ × ℤ) : 0 < (stepCost d).toReal := by
  rcases stepCost_split d with hs | hs <;> rw [hs, QSqrt2.toReal_mk]
  · norm_num
  · push_cast
    have := QSqrt2.sqrt_two_pos
    linarith

/-- Row-major index of an in-range pixel is within the buffer. -/
theorem pixel_idx_lt {w h x y : ℕ} (hx : x < w) (hy : y < h) : y * w + x < w * h := by
  calc y * w + x < y * w + w := by omega
    _ = (y + 1) * w := by ring
    _ ≤ h * w := Nat.mul_le_mul_right w (by omega)
    _ = w * h := Nat.mul_comm h w

/-- Row-major indexing is injective on in-range pixels. -/
theorem pixel_idx_inj {w x y nx ny : ℕ} (hx : x < w) (hnx : nx < w)
    (heq : y * w + x = ny * w + nx) : x = nx ∧ y = ny := by
  have hw : 0 < w := by omega
  have h1 : (y * w + x) % w = x := by
    rw [Nat.add_comm, Nat.add_mul_mod_self_right]; exact Nat.mod_eq_of_lt hx
  have h2 : (ny * w + nx) % w = nx := by
    rw [Nat.add_comm, Nat.add_mul_mod_self_right]; exact Nat.mod_eq_of_lt hnx
  have hxn : x = nx := by rw [← h1, ← h2, heq]
  refine ⟨hxn, ?_⟩
  subst hxn
  have := Nat.eq_of_mul_eq_mul_right hw (show y * w = ny * w by omega)
  exact this

/-- Path costs have natural coefficients. -/
theorem edgePath_coeffs {contour : ℕ → Bool} {w h x y : ℕ} {v : QSqrt2}
    (hp : EdgePath contour w h x y v) : ∃ a b : ℕ, v = ⟨(a : ℚ), (b : ℚ)⟩ := by
  induction hp with
  | edge x y hin he => exact ⟨0, 0, by norm_num⟩
  | step x y v d nx ny hp hd hnx hny hin ih =>
    obtain ⟨a, b, rfl⟩ := ih
    rcases stepCost_split d with hs | hs <;> rw [hs]
    · exact ⟨a + 1, b, by simp [QSqrt2.add]⟩
    · exact ⟨a, b + 1, by simp [QSqrt2.add]⟩

/-- Path costs are nonnegative. -/
theorem edgePath_nonneg {contour : ℕ → Bool} {w h x y : ℕ} {v : QSqrt2}
    (hp : EdgePath contour w h x y v) : 0 ≤ v.toReal := by
  obtain ⟨a, b, rfl⟩ := edgePath_coeffs hp
  rw [QSqrt2.toReal_mk]
  have := QSqrt2.sqrt_two_pos
  positivity

/-- A capped path cost lies in the candidate value set. -/
theorem edgePath_mem_distValues {contour : ℕ → Bool} {w h x y : ℕ} {maxD : ℚ}
    {v : QSqrt2} (hp : EdgePath contour w h x y v)
    (hble : QSqrt2.ble v ⟨maxD, 0⟩ = true) : v ∈ distValues maxD := by
  obtain ⟨a, b, rfl⟩ := edgePath_coeffs hp
  have hle : QSqrt2.toReal ⟨(a : ℚ), (b : ℚ)⟩ ≤ (maxD : ℝ) := by
    have := (QSqrt2.ble_iff _ _).mp hble
    rwa [QSqrt2.toReal_ofRat] at this
  rw [QSqrt2.toReal_mk] at hle
  push_cast at hle
  have hs2 := QSqrt2.sqrt_two_pos
  have hs1 := one_le_sqrt_two
  have hbr : (0 : ℝ) ≤ (b : ℝ) * Real.sqrt 2 := by positivity
  have haR : (a : ℝ) ≤ (maxD : ℝ) := by linarith
  have hbR : (b : ℝ) ≤ (maxD : ℝ) := by nlinarith
  have haQ : (a : ℚ) ≤ maxD := by exact_mod_cast haR
  have hbQ : (b : ℚ) ≤ maxD := by exact_mod_cast hbR
  have hceil : maxD ≤ (⌈maxD⌉₊ : ℚ) := Nat.le_ceil maxD
  have ha : a ≤ ⌈maxD⌉₊ := by exact_mod_cast le_trans haQ hceil
  have hb : b ≤ ⌈maxD⌉₊ := by exact_mod_cast le_trans hbQ hceil
  unfold distValues
  apply Finset.mem_image.mpr
  refine ⟨(a, b), ?_, rfl⟩
  rw [Finset.mem_product]
  exact ⟨Finset.mem_range.mpr (by omega), Finset.mem_range.mpr (by omega)⟩

/-- A strict improvement by a candidate value strictly lowers the rank. -/
theorem distRank_lt_of_blt {maxD : ℚ} {v u : QSqrt2} (hmem : v ∈ distValues maxD)
    (hlt : QSqrt2.blt v u = true) : distRank maxD v < distRank maxD u := by
  unfold distRank
  apply Finset.card_lt_card
  constructor
  · intro s hs
    rw [Finset.mem_filter] at hs ⊢
    refine ⟨hs.1, ?_⟩
    rw [QSqrt2.blt_iff] at hs ⊢
    exact lt_trans hs.2 ((QSqrt2.blt_iff v u).mp hlt)
  · intro hsub
    have hv : v ∈ (distValues maxD).filter fun s => QSqrt2.blt s u = true := by
      rw [Finset.mem_filter]; exact ⟨hmem, hlt⟩
    have := hsub hv
    rw [Finset.mem_filter] at this
    exact absurd this.2 (by rw [QSqrt2.blt_self_eq_false]; simp)

theorem distRank_le {maxD : ℚ} (v : QSqrt2) :
    distRank maxD v ≤ (⌈maxD⌉₊ + 1) ^ 2 := by
  unfold distRank
  calc ((distValues maxD).filter fun s => QSqrt2.blt s v = true).card
      ≤ (distValues maxD).card := Finset.card_filter_le _ _
    _ ≤ ((Finset.range (⌈maxD⌉₊ + 1)) ×ˢ (Finset.range (⌈maxD⌉₊ + 1))).card :=
        Finset.card_image_le
    _ = (⌈maxD⌉₊ + 1) ^ 2 := by
        rw [Finset.card_product, Finset.card_range]; ring

/-- Updating one buffer slot to a strictly lower-ranked value strictly
lowers the potential. -/
theorem spfaPotential_update_lt {w h : ℕ} {maxD : ℚ} (dists : ℕ → QSqrt2)
    {nIdx : ℕ} (hn : nIdx < w * h) {new : QSqrt2}
    (hrank : distRank maxD new < distRank maxD (dists nIdx)) :
    spfaPotential w h maxD (Function.update dists nIdx new) <
      spfaPotential w h maxD dists := by
  unfold spfaPotential
  have hmem : nIdx ∈ Finset.range (w * h) := Finset.mem_range.mpr hn
  rw [← Finset.add_sum_erase _ _ hmem, ← Finset.add_sum_erase _ _ hmem]
  have hcongr : ∀ i ∈ (Finset.range (w * h)).erase nIdx,
      distRank maxD (Function.update dists nIdx new i) = distRank maxD (dists i) := by
    intro i hi
    rw [Function.update_noteq (Finset.ne_of_mem_erase hi)]
  rw [Finset.sum_congr rfl hcongr, Function.update_same]
  omega

/-- One relaxation micro-step either leaves the state unchanged — and then
no inside neighbour at this offset admits the improving update — or
performs exactly one improving update with matching enqueue. -/
theorem relaxOne_cases (contour : ℕ → Bool) (w h : ℕ) (maxD : ℚ) (e : QEntry)
    (acc : (ℕ → QSqrt2) × List QEntry) (d : ℤ × ℤ) :
    (relaxOne contour w h maxD e acc d = acc ∧
      ∀ nx ny : ℕ, (nx : ℤ) = (e.x : ℤ) + d.1 → (ny : ℤ) = (e.y : ℤ) + d.2 →
        InsidePx contour w h nx ny →
        ¬ (QSqrt2.blt (e.dist.add (stepCost d)) (acc.1 (ny * w + nx)) = true ∧
           QSqrt2.ble (e.dist.add (stepCost d)) ⟨maxD, 0⟩ = true)) ∨
    (∃ nx ny : ℕ,
      (nx : ℤ) = (e.x : ℤ) + d.1 ∧ (ny : ℤ) = (e.y : ℤ) + d.2 ∧
      InsidePx contour w h nx ny ∧
      QSqrt2.blt (e.dist.add (stepCost d)) (acc.1 (ny * w + nx)) = true ∧
      QSqrt2.ble (e.dist.add (stepCost d)) ⟨maxD, 0⟩ = true ∧
      relaxOne contour w h maxD e acc d =
        (Function.update acc.1 (ny * w + nx) (e.dist.add (stepCost d)),
         acc.2 ++ [⟨nx, ny, e.dist.add (stepCost d)⟩])) := by
  simp only [relaxOne]
  by_cases hb : 0 ≤ (e.x : ℤ) + d.1 ∧ (e.x : ℤ) + d.1 < (w : ℤ) ∧
      0 ≤ (e.y : ℤ) + d.2 ∧ (e.y : ℤ) + d.2 < (h : ℤ)
  · rw [if_pos hb]
    obtain ⟨hb1, hb2, hb3, hb4⟩ := hb
    have hnx' : ((((e.x : ℤ) + d.1).toNat : ℕ) : ℤ) = (e.x : ℤ) + d.1 :=
      Int.toNat_of_nonneg hb1
    have hny' : ((((e.y : ℤ) + d.2).toNat : ℕ) : ℤ) = (e.y : ℤ) + d.2 :=
      Int.toNat_of_nonneg hb3
    by_cases hc : contour (((e.y : ℤ) + d.2).toNat * w + ((e.x : ℤ) + d.1).toNat) = true
    · rw [if_pos hc]
      by_cases hcond :
          (QSqrt2.blt (e.dist.add (stepCost d))
              (acc.1 (((e.y : ℤ) + d.2).toNat * w + ((e.x : ℤ) + d.1).toNat)) &&
            QSqrt2.ble (e.dist.add (stepCost d)) ⟨maxD, 0⟩) = true
      · rw [if_pos hcond]
        rw [Bool.and_eq_true] at hcond
        exact Or.inr ⟨((e.x : ℤ) + d.1).toNat, ((e.y : ℤ) + d.2).toNat,
          hnx', hny', ⟨by omega, by omega, hc⟩, hcond.1, hcond.2, rfl⟩
      · rw [if_neg hcond]
        refine Or.inl ⟨rfl, ?_⟩
        intro nx ny hnx hny _ hcon
        have hx : nx = ((e.x : ℤ) + d.1).toNat := by omega
        have hy : ny = ((e.y : ℤ) + d.2).toNat := by omega
        subst hx; subst hy
        exact hcond (by rw [Bool.and_eq_true]; exact hcon)
    · rw [if_neg hc]
      refine Or.inl ⟨rfl, ?_⟩
      intro nx ny hnx hny hin _
      have hx : nx = ((e.x : ℤ) + d.1).toNat := by omega
      have hy : ny = ((e.y : ℤ) + d.2).toNat := by omega
      subst hx; subst hy
      exact hc hin.2.2
  · rw [if_neg hb]
    refine Or.inl ⟨rfl, ?_⟩
    intro nx ny hnx hny hin _
    obtain ⟨h1, h2, _⟩ := hin
    exact hb (by omega)

/-- Wellformedness of the distance array survives one improving update. -/
theorem DistsOK_update {contour : ℕ → Bool} {w h : ℕ} {maxD : ℚ}
    {dists : ℕ → QSqrt2} (hd : DistsOK contour w h maxD dists)
    {nx ny : ℕ} (hin : InsidePx contour w h nx ny) {new : QSqrt2}
    (hpath : EdgePath contour w h nx ny new)
    (hble : QSqrt2.ble new ⟨maxD, 0⟩ = true)
    (hblt : QSqrt2.blt new (dists (ny * w + nx)) = true) :
    DistsOK contour w h maxD (Function.update dists (ny * w + nx) new) := by
  obtain ⟨hsent, hval, hedge⟩ := hd
  have hlt : ny * w + nx < w * h := pixel_idx_lt hin.1 hin.2.1
  refine ⟨?_, ?_, ?_⟩
  · intro idx hidx
    have hne : idx ≠ ny * w + nx := by
      intro heq; subst heq; exact hidx ⟨hlt, hin.2.2⟩
    rw [Function.update_noteq hne]
    exact hsent idx hidx
  · intro x y hxy
    by_cases heq : y * w + x = ny * w + nx
    · obtain ⟨rfl, rfl⟩ := pixel_idx_inj hxy.1 hin.1 heq
      rw [Function.update_same]
      exact Or.inr ⟨hpath, hble⟩
    · rw [Function.update_noteq heq]
      exact hval x y hxy
  · intro x y hxy hedgepx
    by_cases heq : y * w + x = ny * w + nx
    · exfalso
      obtain ⟨rfl, rfl⟩ := pixel_idx_inj hxy.1 hin.1 heq
      have hzero := hedge _ _ hxy hedgepx
      rw [hzero] at hblt
      have := (QSqrt2.blt_iff _ _).mp hblt
      rw [QSqrt2.toReal_ofRat] at this
      have hnn := edgePath_nonneg hpath
      push_cast at this
      linarith
    · rw [Function.update_noteq heq]
      exact hedge x y hxy hedgepx

/-- Specification of the whole relaxation fold for one dequeued entry:
wellformedness survives, values only decrease, changed slots are covered
by freshly enqueued entries, old pending entries survive, new entries are
wellformed, every processed offset ends relaxed, and the potential plus
queue length does not grow. -/
theorem relaxFold_spec (contour : ℕ → Bool) (w h : ℕ) (maxD : ℚ) (e : QEntry)
    (hent : EntryOK contour w h maxD e) :
    ∀ (l : List (ℤ × ℤ)), (∀ d ∈ l, d ∈ neighborOffsets) →
    ∀ (dists : ℕ → QSqrt2) (pend : List QEntry)
      (res : (ℕ → QSqrt2) × List QEntry),
    res = l.foldl (relaxOne contour w h maxD e) (dists, pend) →
    DistsOK contour w h maxD dists →
    DistsOK contour w h maxD res.1 ∧
    (∀ idx, (res.1 idx).toReal ≤ (dists idx).toReal) ∧
    (∀ idx, res.1 idx = dists idx ∨
      ∃ ent ∈ res.2, ent.y * w + ent.x = idx ∧ ent.dist = res.1 idx) ∧
    (∀ ent ∈ pend, ent ∈ res.2) ∧
    (∀ ent ∈ res.2, ent ∈ pend ∨ EntryOK contour w h maxD ent) ∧
    (∀ d ∈ l, RelaxedFrom contour w h maxD e d res.1) ∧
    spfaPotential w h maxD res.1 + res.2.length ≤
      spfaPotential w h maxD dists + pend.length := by
  intro l
  induction l with
  | nil =>
    intro _ dists pend res hres hd
    rw [List.foldl_nil] at hres
    subst hres
    refine ⟨hd, fun idx => le_refl _, fun idx => Or.inl rfl, fun ent hmem => hmem,
      fun ent hmem => Or.inl hmem, ?_, le_refl _⟩
    intro d hd'
    exact absurd hd' (List.not_mem_nil d)
  | cons d l' ih =>
    intro hsub dists pend res hres hd
    rw [List.foldl_cons] at hres
    have hsub' : ∀ d' ∈ l', d' ∈ neighborOffsets := fun d' hd' =>
      hsub d' (List.mem_cons_of_mem d hd')
    have hdmem : d ∈ neighborOffsets := hsub d (List.mem_cons_self d l')
    rcases relaxOne_cases contour w h maxD e (dists, pend) d with
      ⟨hmid, hprop⟩ | ⟨nx, ny, hnx, hny, hin, hblt, hbleNew, hmid⟩
    · rw [hmid] at hres
      obtain ⟨ihOK, ihDec, ihCover, ihPend, ihNew, ihRelax, ihPot⟩ :=
        ih hsub' dists pend res hres hd
      refine ⟨ihOK, ihDec, ihCover, ihPend, ihNew, ?_, ihPot⟩
      intro d' hd'
      rcases List.mem_cons.mp hd' with rfl | hd'
      · intro nx ny hnx hny hin hcap
        have hbleD : QSqrt2.ble (e.dist.add (stepCost d')) ⟨maxD, 0⟩ = true := by
          rw [QSqrt2.ble_iff, QSqrt2.toReal_add, QSqrt2.toReal_ofRat]
          exact hcap
        have hnlt := hprop nx ny hnx hny hin
        have hnotblt : ¬ QSqrt2.blt (e.dist.add (stepCost d'))
            (dists (ny * w + nx)) = true := fun hb => hnlt ⟨hb, hbleD⟩
        have hge : (dists (ny * w + nx)).toReal ≤
            e.dist.toReal + (stepCost d').toReal := by
          by_contra hcontra
          push_neg at hcontra
          apply hnotblt
          rw [QSqrt2.blt_iff, QSqrt2.toReal_add]
          exact hcontra
        exact le_trans (ihDec _) hge
      · exact ihRelax d' hd'
    · rw [hmid] at hres
      set new := e.dist.add (stepCost d) with hnew
      have hpathNew : EdgePath contour w h nx ny new :=
        EdgePath.step e.x e.y e.dist d nx ny hent.2.1 hdmem hnx hny hin
      have hmidOK : DistsOK contour w h maxD
          (Function.update dists (ny * w + nx) new) :=
        DistsOK_update hd hin hpathNew hbleNew hblt
      obtain ⟨ihOK, ihDec, ihCover, ihPend, ihNew, ihRelax, ihPot⟩ :=
        ih hsub' (Function.update dists (ny * w + nx) new)
          (pend ++ [⟨nx, ny, new⟩]) res hres hmidOK
      have hmidDec : ∀ idx,
          (Function.update dists (ny * w + nx) new idx).toReal ≤
            (dists idx).toReal := by
        intro idx
        by_cases heq : idx = ny * w + nx
        · subst heq
          rw [Function.update_same]
          exact le_of_lt ((QSqrt2.blt_iff _ _).mp hblt)
        · rw [Function.update_noteq heq]
      have hentNew : EntryOK contour w h maxD ⟨nx, ny, new⟩ :=
        ⟨hin, hpathNew, hbleNew⟩
      refine ⟨ihOK, ?_, ?_, ?_, ?_, ?_, ?_⟩
      · intro idx
        exact le_trans (ihDec idx) (hmidDec idx)
      · intro idx
        rcases ihCover idx with hsame | hcov
        · by_cases heq : idx = ny * w + nx
          · subst heq
            refine Or.inr ⟨⟨nx, ny, new⟩, ?_, rfl, ?_⟩
            · exact ihPend _ (List.mem_append_right pend (List.mem_singleton.mpr rfl))
            · rw [hsame, Function.update_same]
          · rw [hsame, Function.update_noteq heq]
            exact Or.inl rfl
        · exact Or.inr hcov
      · intro ent hmem
        exact ihPend ent (List.mem_append_left _ hmem)
      · intro ent hmem
        rcases ihNew ent hmem with hpd | hOK
        · rcases List.mem_append.mp hpd with hpd | hsec
          · exact Or.inl hpd
          · rw [List.mem_singleton.mp hsec]
            exact Or.inr hentNew
        · exact Or.inr hOK
      · intro d' hd'
        rcases List.mem_cons.mp hd' with rfl | hd'
        · intro nx' ny' hnx' hny' hin' hcap
          have hx : nx' = nx := by omega
          have hy : ny' = ny := by omega
          subst hx; subst hy
          have h1 : (Function.update dists (ny' * w + nx') new
              (ny' * w + nx')).toReal = new.toReal := by
            rw [Function.update_same]
          have h2 := ihDec (ny' * w + nx')
          rw [h1] at h2
          rw [hnew, QSqrt2.toReal_add] at h2
          exact h2
        · exact ihRelax d' hd'
      · have hidx : ny * w + nx < w * h := pixel_idx_lt hin.1 hin.2.1
        have hrank : distRank maxD new < distRank maxD (dists (ny * w + nx)) :=
          distRank_lt_of_blt (edgePath_mem_distValues hpathNew hbleNew) hblt
        have hpotdec := spfaPotential_update_lt (w := w) (h := h) dists hidx hrank
        have hlen : (pend ++ [(⟨nx, ny, new⟩ : QEntry)]).length = pend.length + 1 := by
          simp
        rw [hlen] at ihPot
        omega

/-- With fuel exceeding the potential plus the queue length, the loop
reaches a wellformed, fully relaxed state. -/
theorem spfaLoop_ok (contour : ℕ → Bool) (w h : ℕ) (maxD : ℚ) :
    ∀ (fuel : ℕ) (dists : ℕ → QSqrt2) (queue : List QEntry),
    LoopOK contour w h maxD dists queue →
    spfaPotential w h maxD dists + queue.length < fuel →
    FinalOK contour w h maxD (spfaLoop contour w h maxD fuel dists queue) := by
  intro fuel
  induction fuel with
  | zero =>
    intro dists queue _ hm
    omega
  | succ fuel ih =>
    intro dists queue hinv hm
    obtain ⟨hOK, hents, hcover⟩ := hinv
    cases queue with
    | nil =>
      simp only [spfaLoop]
      refine ⟨hOK, ?_⟩
      intro x y hxy
      rcases hcover x y hxy with ⟨ent, hmem, _⟩ | hrel
      · exact absurd hmem (List.not_mem_nil ent)
      · exact hrel
    | cons e rest =>
      simp only [spfaLoop]
      by_cases hskip : QSqrt2.ble ⟨maxD, 0⟩ e.dist = true
      · rw [if_pos hskip]
        apply ih
        · refine ⟨hOK, fun ent hmem => hents ent (List.mem_cons_of_mem e hmem), ?_⟩
          intro x y hxy
          rcases hcover x y hxy with ⟨ent, hmem, hx, hy, hdist⟩ | hrel
          · rcases List.mem_cons.mp hmem with rfl | hmem'
            · refine Or.inr ?_
              intro d _ nx ny _ _ _ hcap
              exfalso
              have hval : (maxD : ℝ) ≤ (dists (y * w + x)).toReal := by
                have := (QSqrt2.ble_iff _ _).mp hskip
                rw [QSqrt2.toReal_ofRat] at this
                rw [← hdist]
                exact this
              have := stepCost_pos d
              linarith
            · exact Or.inl ⟨ent, hmem', hx, hy, hdist⟩
          · exact Or.inr hrel
        · simp only [List.length_cons] at hm
          omega
      · rw [if_neg hskip]
        have hentE : EntryOK contour w h maxD e := hents e (List.mem_cons_self e rest)
        obtain ⟨fOK, fDec, fCover, fPend, fNew, fRelax, fPot⟩ :=
          relaxFold_spec contour w h maxD e hentE neighborOffsets (fun d hd => hd)
            dists [] (relaxNeighbors contour w h maxD e dists) rfl hOK
        apply ih
        · refine ⟨fOK, ?_, ?_⟩
          · intro ent hmem
            rcases List.mem_append.mp hmem with hmem' | hmem'
            · exact hents ent (List.mem_cons_of_mem e hmem')
            · rcases fNew ent hmem' with hpd | hOK'
              · exact absurd hpd (List.not_mem_nil ent)
              · exact hOK'
          · intro x y hxy
            have hfreshCase : (∃ ent ∈ (relaxNeighbors contour w h maxD e dists).2,
                ent.y * w + ent.x = y * w + x ∧
                ent.dist = (relaxNeighbors contour w h maxD e dists).1 (y * w + x)) →
                ∃ ent ∈ rest ++ (relaxNeighbors contour w h maxD e dists).2,
                  ent.x = x ∧ ent.y = y ∧
                  ent.dist = (relaxNeighbors contour w h maxD e dists).1 (y * w + x) := by
              rintro ⟨ent, hmem, hidx, hdist⟩
              have hentOK : EntryOK contour w h maxD ent := by
                rcases fNew ent hmem with hpd | hOK'
                · exact absurd hpd (List.not_mem_nil ent)
                · exact hOK'
              obtain ⟨hex, hey⟩ := pixel_idx_inj hentOK.1.1 hxy.1 hidx
              exact ⟨ent, List.mem_append_right rest hmem, hex, hey, hdist⟩
            rcases hcover x y hxy with ⟨ent, hmem, hx, hy, hdist⟩ | hrel
            · rcases List.mem_cons.mp hmem with rfl | hmem'
              · rcases fCover (y * w + x) with hsame | hcov
                · refine Or.inr ?_
                  intro d hd nx ny hnx hny hin hcap
                  rw [hsame, ← hdist] at hcap ⊢
                  refine le_trans (fRelax d hd nx ny ?_ ?_ hin hcap) (le_refl _)
                  · rw [hnx, hx]
                  · rw [hny, hy]
                · exact Or.inl (hfreshCase hcov)
              · rcases fCover (y * w + x) with hsame | hcov
                · refine Or.inl ⟨ent, List.mem_append_left _ hmem', hx, hy, ?_⟩
                  rw [hsame]
                  exact hdist
                · exact Or.inl (hfreshCase hcov)
            · rcases fCover (y * w + x) with hsame | hcov
              · refine Or.inr ?_
                intro d hd nx ny hnx hny hin hcap
                rw [hsame] at hcap ⊢
                exact le_trans (fDec _) (hrel d hd nx ny hnx hny hin hcap)
              · exact Or.inl (hfreshCase hcov)
        · have hlen : (rest ++ (relaxNeighbors contour w h maxD e dists).2).length =
              rest.length + (relaxNeighbors contour w h maxD e dists).2.length := by
            simp
          simp only [List.length_cons] at hm
          simp only [List.length_nil, Nat.add_zero] at fPot
          omega

theorem initDists_inside {contour : ℕ → Bool} {w h : ℕ} {maxD : ℚ} {x y : ℕ}
    (hxy : InsidePx contour w h x y) :
    initDists contour w h maxD (y * w + x) =
      if isEdgePx contour w h x y then ⟨0, 0⟩ else ⟨maxD, 0⟩ := by
  obtain ⟨hx, hy, hc⟩ := hxy
  have hlt : y * w + x < w * h := pixel_idx_lt hx hy
  have hmod : (y * w + x) % w = x := by
    rw [Nat.add_comm, Nat.add_mul_mod_self_right]; exact Nat.mod_eq_of_lt hx
  have hdiv : (y * w + x) / w = y := by
    rw [Nat.add_comm, Nat.add_mul_div_right _ _ (by omega : 0 < w),
      Nat.div_eq_of_lt hx]
    omega
  unfold initDists
  rw [if_pos ⟨hlt, hc⟩, hmod, hdiv]

theorem mem_initQueue_facts {contour : ℕ → Bool} {w h : ℕ} {ent : QEntry}
    (hmem : ent ∈ initQueue contour w h) :
    ent.x < w ∧ ent.y < h ∧ contour (ent.y * w + ent.x) = true ∧
    isEdgePx contour w h ent.x ent.y = true ∧ ent.dist = ⟨0, 0⟩ := by
  unfold initQueue at hmem
  rw [List.mem_flatMap] at hmem
  obtain ⟨y, hy, hmem⟩ := hmem
  rw [List.mem_filterMap] at hmem
  obtain ⟨x, hx, hopt⟩ := hmem
  rw [List.mem_range] at hx hy
  by_cases hcond : (contour (y * w + x) && isEdgePx contour w h x y) = true
  · rw [if_pos hcond] at hopt
    rw [Bool.and_eq_true] at hcond
    cases hopt
    exact ⟨hx, hy, hcond.1, hcond.2, rfl⟩
  · rw [if_neg hcond] at hopt
    exact absurd hopt (Option.some_ne_none ent).symm

theorem edge_mem_initQueue {contour : ℕ → Bool} {w h x y : ℕ}
    (hxy : InsidePx contour w h x y) (hedge : isEdgePx contour w h x y = true) :
    (⟨x, y, ⟨0, 0⟩⟩ : QEntry) ∈ initQueue contour w h := by
  unfold initQueue
  rw [List.mem_flatMap]
  refine ⟨y, List.mem_range.mpr hxy.2.1, ?_⟩
  rw [List.mem_filterMap]
  refine ⟨x, List.mem_range.mpr hxy.1, ?_⟩
  rw [if_pos (by rw [Bool.and_eq_true]; exact ⟨hxy.2.2, hedge⟩)]

/-- The initial state satisfies the loop invariant. -/
theorem initState_ok (contour : ℕ → Bool) (w h : ℕ) (maxD : ℚ) (hmaxD : 0 < maxD) :
    LoopOK contour w h maxD (initDists contour w h maxD) (initQueue contour w h) := by
  have hble0 : QSqrt2.ble ⟨0, 0⟩ ⟨maxD, 0⟩ = true := by
    rw [QSqrt2.ble_iff, QSqrt2.toReal_ofRat, QSqrt2.toReal_ofRat]
    push_cast
    exact_mod_cast hmaxD.le
  refine ⟨⟨?_, ?_, ?_⟩, ?_, ?_⟩
  · intro idx hidx
    unfold initDists
    rw [if_neg hidx]
  · intro x y hxy
    rw [initDists_inside hxy]
    by_cases hedge : isEdgePx contour w h x y = true
    · rw [if_pos hedge]
      exact Or.inr ⟨EdgePath.edge x y hxy hedge, hble0⟩
    · rw [if_neg hedge]
      exact Or.inl rfl
  · intro x y hxy hedge
    rw [initDists_inside hxy, if_pos hedge]
  · intro ent hmem
    obtain ⟨hx, hy, hc, hedge, hdist⟩ := mem_initQueue_facts hmem
    refine ⟨⟨hx, hy, hc⟩, ?_, ?_⟩
    · rw [hdist]
      exact EdgePath.edge ent.x ent.y ⟨hx, hy, hc⟩ hedge
    · rw [hdist]
      exact hble0
  · intro x y hxy
    by_cases hedge : isEdgePx contour w h x y = true
    · refine Or.inl ⟨⟨x, y, ⟨0, 0⟩⟩, edge_mem_initQueue hxy hedge, rfl, rfl, ?_⟩
      rw [initDists_inside hxy, if_pos hedge]
    · refine Or.inr ?_
      intro d _ nx ny _ _ _ hcap
      exfalso
      rw [initDists_inside hxy, if_neg hedge, QSqrt2.toReal_ofRat] at hcap
      have := stepCost_pos d
      linarith

theorem spfaPotential_le (w h : ℕ) (maxD : ℚ) (dists : ℕ → QSqrt2) :
    spfaPotential w h maxD dists ≤ w * h * ((⌈maxD⌉₊ + 1) ^ 2) := by
  unfold spfaPotential
  calc ∑ idx ∈ Finset.range (w * h), distRank maxD (dists idx)
      ≤ ∑ _idx ∈ Finset.range (w * h), (⌈maxD⌉₊ + 1) ^ 2 :=
        Finset.sum_le_sum fun i _ => distRank_le (dists i)
    _ = w * h * ((⌈maxD⌉₊ + 1) ^ 2) := by
        rw [Finset.sum_const, Finset.card_range, smul_eq_mul]

theorem initQueue_length_le (contour : ℕ → Bool) (w h : ℕ) :
    (initQueue contour w h).length ≤ w * h := by
  unfold initQueue
  rw [List.length_flatMap]
  calc ((List.range h).map fun y => ((List.range w).filterMap fun x =>
          if contour (y * w + x) && isEdgePx contour w h x y then
            some (⟨x, y, ⟨0, 0⟩⟩ : QEntry)
          else none).length).sum
      ≤ ((List.range h).map fun _ => w).sum := by
        apply List.sum_le_sum
        intro y _
        calc ((List.range w).filterMap _).length ≤ (List.range w).length :=
              List.length_filterMap_le _ _
          _ = w := List.length_range w
    _ = h * w := by simp [List.map_const']
    _ = w * h := Nat.mul_comm h w

/-- The distance field returned by `calculateDistanceFieldFast` is a
wellformed, fully relaxed fixed point. -/
theorem calculateDistanceFieldFast_finalOK (contour : ℕ → Bool) (w h : ℕ)
    (maxD : ℚ) (hmaxD : 0 < maxD) :
    FinalOK contour w h maxD (calculateDistanceFieldFast contour w h maxD) := by
  unfold calculateDistanceFieldFast
  apply spfaLoop_ok
  · exact initState_ok contour w h maxD hmaxD
  · unfold spfaFuel
    have h1 := spfaPotential_le w h maxD (initDists contour w h maxD)
    have h2 := initQueue_length_le contour w h
    nlinarith [h1, h2]

theorem edgePath_inside {contour : ℕ → Bool} {w h x y : ℕ} {v : QSqrt2}
    (hp : EdgePath contour w h x y v) : InsidePx contour w h x y := by
  cases hp with
  | edge x y hin _ => exact hin
  | step x y v d nx ny _ _ _ _ hin => exact hin

theorem distsOK_le_maxD {contour : ℕ → Bool} {w h : ℕ} {maxD : ℚ}
    {dists : ℕ → QSqrt2} (hd : DistsOK contour w h maxD dists) {x y : ℕ}
    (hxy : InsidePx contour w h x y) :
    (dists (y * w + x)).toReal ≤ (maxD : ℝ) := by
  rcases hd.2.1 x y hxy with heq | ⟨_, hble⟩
  · rw [heq, QSqrt2.toReal_ofRat]
  · have := (QSqrt2.ble_iff _ _).mp hble
    rwa [QSqrt2.toReal_ofRat] at this

/-- In a relaxed final state, the recorded distance of a pixel is bounded
by the capped cost of every edge path reaching it. -/
theorem final_le_path {contour : ℕ → Bool} {w h : ℕ} {maxD : ℚ}
    {dists : ℕ → QSqrt2} (hmaxD : 0 < maxD)
    (hfin : FinalOK contour w h maxD dists) :
    ∀ {x y : ℕ} {v : QSqrt2}, EdgePath contour w h x y v →
      (dists (y * w + x)).toReal ≤ min v.toReal (maxD : ℝ) := by
  intro x y v hp
  induction hp with
  | edge x y hin hedge =>
    rw [hfin.1.2.2 x y hin hedge, QSqrt2.toReal_ofRat]
    push_cast
    refine le_min ?_ ?_
    · exact le_refl 0
    · exact_mod_cast hmaxD.le
  | step x y v d nx ny hp hd hnx hny hin ih =>
    rw [QSqrt2.toReal_add]
    rcases le_or_lt (v.toReal + (stepCost d).toReal) ((maxD : ℚ) : ℝ) with hcap | hcap
    · rw [min_eq_left hcap]
      have hc := stepCost_pos d
      have hvle : v.toReal ≤ ((maxD : ℚ) : ℝ) := by linarith
      have hple : (dists (y * w + x)).toReal ≤ v.toReal := by
        have h1 := ih
        rw [min_eq_left hvle] at h1
        exact h1
      have hcapP : (dists (y * w + x)).toReal + (stepCost d).toReal ≤ (maxD : ℝ) := by
        linarith
      have hrel := hfin.2 x y (edgePath_inside hp) d hd nx ny hnx hny hin hcapP
      linarith
    · rw [min_eq_right hcap.le]
      exact distsOK_le_maxD hfin.1 hin

/-- Every inside pixel is reached by some edge path (walk left until the
mask or the raster ends). -/
theorem exists_edgePath (contour : ℕ → Bool) (w h : ℕ) :
    ∀ x y : ℕ, InsidePx contour w h x y → ∃ v, EdgePath contour w h x y v := by
  intro x
  induction x using Nat.strong_induction_on with
  | _ x ih =>
    intro y hxy
    by_cases hedge : isEdgePx contour w h x y = true
    · exact ⟨⟨0, 0⟩, EdgePath.edge x y hxy hedge⟩
    · have hany : isEdgePx contour w h x y = false := by
        cases hb : isEdgePx contour w h x y
        · rfl
        · exact absurd hb hedge
      simp only [isEdgePx] at hany
      have h0 := (List.any_eq_false.mp hany) ((-1 : ℤ), (0 : ℤ))
        (by simp [neighborOffsets])
      by_cases hb : 0 ≤ (x : ℤ) + (-1) ∧ (x : ℤ) + (-1) < (w : ℤ) ∧
          0 ≤ (y : ℤ) + (0 : ℤ) ∧ (y : ℤ) + (0 : ℤ) < (h : ℤ)
      · rw [if_pos hb] at h0
        obtain ⟨hb1, hb2, hb3, hb4⟩ := hb
        have hxpos : 1 ≤ x := by omega
        have hty : ((y : ℤ) + 0).toNat = y := by omega
        have htx : ((x : ℤ) + (-1)).toNat = x - 1 := by omega
        rw [hty, htx] at h0
        have hcont : contour (y * w + (x - 1)) = true := by
          cases hc : contour (y * w + (x - 1))
          · rw [hc] at h0; exact absurd h0 (by simp)
          · rfl
        have hinPrev : InsidePx contour w h (x - 1) y := ⟨by omega, hxy.2.1, hcont⟩
        obtain ⟨v, hv⟩ := ih (x - 1) (by omega) y hinPrev
        refine ⟨v.add (stepCost ((1 : ℤ), (0 : ℤ))),
          EdgePath.step (x - 1) y v ((1 : ℤ), (0 : ℤ)) x y hv
            (by simp [neighborOffsets]) (by omega) (by omega) hxy⟩
      · rw [if_neg hb] at h0
        exact absurd h0 (by simp)

theorem QSqrt2.add_comm (v u : QSqrt2) : v.add u = u.add v := by
  unfold QSqrt2.add
  rw [Rat.add_comm v.q u.q, Rat.add_comm v.s u.s]

theorem neg_mem_neighborOffsets {d : ℤ × ℤ} (hd : d ∈ neighborOffsets) :
    (-d.1, -d.2) ∈ neighborOffsets := by
  simp only [neighborOffsets, List.mem_cons, List.not_mem_nil, or_false] at hd ⊢
  rcases hd with rfl | rfl | rfl | rfl | rfl | rfl | rfl | rfl <;> norm_num

theorem stepCost_neg (d : ℤ × ℤ) : stepCost (-d.1, -d.2) = stepCost d := by
  unfold stepCost
  simp [neg_eq_zero]

theorem latticeWalk_nonneg {p e : ℤ × ℤ} {v : QSqrt2}
    (hw : LatticeWalk p e v) : 0 ≤ v.toReal := by
  induction hw with
  | nil p =>
    rw [QSqrt2.toReal_ofRat]
    push_cast
    exact le_refl 0
  | cons p q r v d hd hq hw ih =>
    rw [QSqrt2.toReal_add]
    have := stepCost_pos d
    linarith

/-- A pixel that is not an edge pixel has all eight neighbours in range and
inside the mask. -/
theorem not_edge_all_neighbors {contour : ℕ → Bool} {w h x y : ℕ}
    (hedge : isEdgePx contour w h x y = false) :
    ∀ d ∈ neighborOffsets, ∃ nx ny : ℕ,
      (nx : ℤ) = (x : ℤ) + d.1 ∧ (ny : ℤ) = (y : ℤ) + d.2 ∧
      InsidePx contour w h nx ny := by
  intro d hd
  simp only [isEdgePx] at hedge
  have h0 := (List.any_eq_false.mp hedge) d hd
  by_cases hb : 0 ≤ (x : ℤ) + d.1 ∧ (x : ℤ) + d.1 < (w : ℤ) ∧
      0 ≤ (y : ℤ) + d.2 ∧ (y : ℤ) + d.2 < (h : ℤ)
  · rw [if_pos hb] at h0
    obtain ⟨hb1, hb2, hb3, hb4⟩ := hb
    refine ⟨((x : ℤ) + d.1).toNat, ((y : ℤ) + d.2).toNat,
      Int.toNat_of_nonneg hb1, Int.toNat_of_nonneg hb3, by omega, by omega, ?_⟩
    cases hc : contour (((y : ℤ) + d.2).toNat * w + ((x : ℤ) + d.1).toNat)
    · rw [hc] at h0
      exact absurd h0 (by simp)
    · rfl
  · rw [if_neg hb] at h0
    exact absurd h0 (by simp)

/-- Every inside edge path, reversed, is a lattice walk to an edge pixel of
the same cost. -/
theorem edgePath_to_walk {contour : ℕ → Bool} {w h x y : ℕ} {v : QSqrt2}
    (hp : EdgePath contour w h x y v) :
    ∃ ex ey : ℕ, InsidePx contour w h ex ey ∧ isEdgePx contour w h ex ey = true ∧
      LatticeWalk ((x : ℤ), (y : ℤ)) ((ex : ℤ), (ey : ℤ)) v := by
  induction hp with
  | edge x y hin hedge => exact ⟨x, y, hin, hedge, LatticeWalk.nil _⟩
  | step x y v d nx ny hp hd hnx hny hin ih =>
    obtain ⟨ex, ey, hein, heedge, hwalk⟩ := ih
    refine ⟨ex, ey, hein, heedge, ?_⟩
    have hstep := LatticeWalk.cons ((nx : ℤ), (ny : ℤ)) ((x : ℤ), (y : ℤ))
      ((ex : ℤ), (ey : ℤ)) v (-d.1, -d.2) (neg_mem_neighborOffsets hd)
      (by simp only [Prod.mk.injEq]; constructor <;> omega) hwalk
    rwa [stepCost_neg] at hstep

/-- First-exit argument: any lattice walk from an inside pixel to an edge
pixel dominates some inside edge path to that pixel. -/
theorem walk_to_edgePath {contour : ℕ → Bool} {w h : ℕ} :
    ∀ {p e : ℤ × ℤ} {v : QSqrt2}, LatticeWalk p e v →
    ∀ x y : ℕ, p = ((x : ℤ), (y : ℤ)) → InsidePx contour w h x y →
    (∃ ex ey : ℕ, e = ((ex : ℤ), (ey : ℤ)) ∧ InsidePx contour w h ex ey ∧
      isEdgePx contour w h ex ey = true) →
    ∃ u, EdgePath contour w h x y u ∧ u.toReal ≤ v.toReal := by
  intro p e v hw
  induction hw with
  | nil p =>
    rintro x y rfl hin ⟨ex, ey, heq, hein, heedge⟩
    rw [Prod.mk.injEq] at heq
    have hx : x = ex := by exact_mod_cast heq.1
    have hy : y = ey := by exact_mod_cast heq.2
    subst hx; subst hy
    exact ⟨⟨0, 0⟩, EdgePath.edge x y hin heedge, le_refl _⟩
  | cons p q r v d hd hq hwalk ih =>
    rintro x y rfl hin hedgeTarget
    by_cases hedge : isEdgePx contour w h x y = true
    · refine ⟨⟨0, 0⟩, EdgePath.edge x y hin hedge, ?_⟩
      rw [QSqrt2.toReal_ofRat, QSqrt2.toReal_add]
      push_cast
      have h1 := latticeWalk_nonneg hwalk
      have h2 := stepCost_pos d
      linarith
    · have hedgeF : isEdgePx contour w h x y = false := by
        cases hb : isEdgePx contour w h x y
        · rfl
        · exact absurd hb hedge
      obtain ⟨nx, ny, hnx, hny, hinQ⟩ :=
        not_edge_all_neighbors hedgeF d hd
      have hqeq : q = ((nx : ℤ), (ny : ℤ)) := by
        rw [hq, Prod.mk.injEq]
        constructor <;> omega
      obtain ⟨u, hu, hule⟩ := ih nx ny hqeq hinQ hedgeTarget
      have hstep := EdgePath.step nx ny u (-d.1, -d.2) x y hu
        (neg_mem_neighborOffsets hd) (by omega) (by omega) hin
      rw [stepCost_neg] at hstep
      refine ⟨u.add (stepCost d), hstep, ?_⟩
      rw [QSqrt2.toReal_add, QSqrt2.toReal_add]
      have := stepCost_pos d
      linarith

/-- For inside pixels the claimed unrestricted walk distance and the inside
path distance coincide. -/
theorem sInf_walkLengths_eq {contour : ℕ → Bool} {w h x y : ℕ}
    (hxy : InsidePx contour w h x y) :
    sInf (walkLengths contour w h x y) = sInf (pathLengths contour w h x y) := by
  obtain ⟨v₀, hv₀⟩ := exists_edgePath contour w h x y hxy
  have hPne : (pathLengths contour w h x y).Nonempty := ⟨v₀.toReal, v₀, hv₀, rfl⟩
  have hWne : (walkLengths contour w h x y).Nonempty := by
    obtain ⟨ex, ey, hein, heedge, hwalk⟩ := edgePath_to_walk hv₀
    exact ⟨v₀.toReal, ex, ey, v₀, hein, heedge, hwalk, rfl⟩
  have hPbdd : BddBelow (pathLengths contour w h x y) := by
    refine ⟨0, ?_⟩
    rintro r ⟨v, hv, rfl⟩
    exact edgePath_nonneg hv
  have hWbdd : BddBelow (walkLengths contour w h x y) := by
    refine ⟨0, ?_⟩
    rintro r ⟨ex, ey, v, _, _, hwalk, rfl⟩
    exact latticeWalk_nonneg hwalk
  apply le_antisymm
  · apply le_csInf hPne
    rintro b ⟨v, hv, rfl⟩
    obtain ⟨ex, ey, hein, heedge, hwalk⟩ := edgePath_to_walk hv
    exact csInf_le hWbdd ⟨ex, ey, v, hein, heedge, hwalk, rfl⟩
  · apply le_csInf hWne
    rintro b ⟨ex, ey, v, hein, heedge, hwalk, rfl⟩
    obtain ⟨u, hu, hule⟩ := walk_to_edgePath hwalk x y rfl hxy
      ⟨ex, ey, rfl, hein, heedge⟩
    exact le_trans (csInf_le hPbdd ⟨u, hu, rfl⟩) hule

/-- Claim C1: the distance field returned by `calculateDistanceFieldFast`
holds the `-1` sentinel exactly at mask-false pixels; inside edge pixels
get `0`; and every inside pixel gets the infimum of the lengths of its
8-connected lattice walks to an edge pixel (orthogonal steps `1`,
diagonal steps `√2`), clamped to `[0, maxDistance]`. -/
theorem distance_field_spec :
    ∀ (contour : ℕ → Bool) (w h : ℕ) (maxD : ℚ), 0 < maxD →
      (∀ idx, idx < w * h → contour idx = false →
        calculateDistanceFieldFast contour w h maxD idx = ⟨-1, 0⟩) ∧
      (∀ x y, InsidePx contour w h x y → isEdgePx contour w h x y = true →
        calculateDistanceFieldFast contour w h maxD (y * w + x) = ⟨0, 0⟩) ∧
      (∀ x y, InsidePx contour w h x y →
        (calculateDistanceFieldFast contour w h maxD (y * w + x)).toReal =
          min (sInf (walkLengths contour w h x y)) ((maxD : ℚ) : ℝ)) := by
  intro contour w h maxD hmaxD
  have hfin := calculateDistanceFieldFast_finalOK contour w h maxD hmaxD
  refine ⟨?_, ?_, ?_⟩
  · intro idx hidx hfalse
    exact hfin.1.1 idx (fun hcon => by rw [hfalse] at hcon; exact absurd hcon.2 (by simp))
  · intro x y hxy hedge
    exact hfin.1.2.2 x y hxy hedge
  · intro x y hxy
    rw [sInf_walkLengths_eq hxy]
    obtain ⟨v₀, hv₀⟩ := exists_edgePath contour w h x y hxy
    have hne : (pathLengths contour w h x y).Nonempty := ⟨v₀.toReal, v₀, hv₀, rfl⟩
    have hbdd : BddBelow (pathLengths contour w h x y) := by
      refine ⟨0, ?_⟩
      rintro r ⟨v, hv, rfl⟩
      exact edgePath_nonneg hv
    apply le_antisymm
    · refine le_min ?_ ?_
      · apply le_csInf hne
        rintro r ⟨v, hv, rfl⟩
        exact le_trans (final_le_path hmaxD hfin hv) (min_le_left _ _)
      · exact distsOK_le_maxD hfin.1 hxy
    · rcases hfin.1.2.1 x y hxy with heq | ⟨hpathD, _⟩
      · rw [heq, QSqrt2.toReal_ofRat]
        exact min_le_right _ _
      · exact le_trans (min_le_left _ _)
          (csInf_le hbdd ⟨_, hpathD, rfl⟩)

/-- Witness for `distance_field_spec` on concrete 1×1 masks. -/
theorem distance_field_spec_witness :
    calculateDistanceFieldFast (fun _ => false) 1 1 2 0 = ⟨-1, 0⟩ ∧
    calculateDistanceFieldFast (fun _ => true) 1 1 2 0 = ⟨0, 0⟩ :=
  ⟨(distance_field_spec (fun _ => false) 1 1 2 (by norm_num)).1 0 (by norm_num) rfl,
   (distance_field_spec (fun _ => true) 1 1 2 (by norm_num)).2.1 0 0
     ⟨by norm_num, by norm_num, rfl⟩ (by decide)⟩

end RaisedEdge
